import Mathlib

/-!
Verification of the ChakraAgents.ai orchestration core against its
natural-language specification.

The Python sources are shallowly embedded: strings become `List Char`,
dicts become association lists (first-match lookup, insertion order kept,
in-place update for existing keys, append for new keys — mirroring CPython
dict semantics), floats become exact rationals (`ℚ`; every comparison the
theorems rely on is far away from a representation boundary), and real-time
timestamps (`time.time()`, `datetime.now()`) become explicit numeric
parameters.  Fallible code paths (`KeyError`, `IndexError`) are embedded as
`Option`, with `none` marking the raised exception.

Embedded modules:
  * `backend/app/engine/agent_decision_parser.py`   (parse_agent_decision)
  * `backend/app/engine/langgraph_workflow_runner.py` (router_function,
    _get_next_agent, _process_agent_response, _create_initial_state)
  * `backend/app/engine/tools/tool_registry.py`     (execute_tool)
  * `backend/app/engine/optimizations.py`           (LRUCache, cached_llm_call)
  * `backend/app/engine/hybrid_workflow_engine.py`  (_check_convergence,
    _calculate_difference)
  * `backend/app/engine/agent_prompt_creator.py`    (_enhance_agent_config)
  * `backend/app/api/routes/agentic_workflow_routes.py` (has_cycle)
-/

/-- Characters of a string literal, the working representation of Python `str`. -/
def cs (s : String) : List Char := s.data

/-- A single-quote character, kept out of string literals. -/
def quoteChar : Char := '\''

/-- Python `str.isspace`-style whitespace test used by `\s`, `str.split()` and
`str.strip()` (ASCII whitespace; the sources only ever meet these). -/
def pyIsSpace (c : Char) : Bool :=
  c = ' ' || c = '\t' || c = '\n' || c = '\r' || c = '\x0b' || c = '\x0c'

/-- Python `str.lower` on one character (ASCII case folding; agent names and
tags in the sources are ASCII). -/
def pyLowerChar (c : Char) : Char :=
  if 65 ≤ c.toNat ∧ c.toNat ≤ 90 then Char.ofNat (c.toNat + 32) else c

/-- Python `str.lower`. -/
def pyLower (s : List Char) : List Char := s.map pyLowerChar

/-- Python `str.strip()`. -/
def pyStrip (s : List Char) : List Char :=
  ((s.dropWhile pyIsSpace).reverse.dropWhile pyIsSpace).reverse

/-- Python substring test `needle in hay`. -/
def containsSub (hay needle : List Char) : Bool :=
  needle.isPrefixOf hay ||
    match hay with
    | [] => false
    | _ :: t => containsSub t needle

/-- `sep.join(parts)`. -/
def joinSep (sep : List Char) : List (List Char) → List Char
  | [] => []
  | [x] => x
  | x :: y :: t => x ++ sep ++ joinSep sep (y :: t)

/-- First-match association-list lookup: Python `d[k]` / `d.get(k)`. -/
def alookup {α β : Type} [DecidableEq α] (m : List (α × β)) (k : α) : Option β :=
  match m with
  | [] => none
  | (k', v) :: t => if k' = k then some v else alookup t k

/-- Python dict assignment `d[k] = v`: update in place when the key exists
(instance order kept), append otherwise. -/
def dictSet {α β : Type} [DecidableEq α] (m : List (α × β)) (k : α) (v : β) :
    List (α × β) :=
  match m with
  | [] => [(k, v)]
  | (k', v') :: t => if k' = k then (k, v) :: t else (k', v') :: dictSet t k v

/-- Python `del d[k]` (first occurrence). -/
def dictDel {α β : Type} [DecidableEq α] (m : List (α × β)) (k : α) :
    List (α × β) :=
  match m with
  | [] => []
  | (k', v') :: t => if k' = k then t else (k', v') :: dictDel t k

/-- Keys of a dict, in insertion order. -/
def dictKeys {α β : Type} (m : List (α × β)) : List α := m.map Prod.fst

/-- Python `min(items, key=lambda x: x[1])`: the first pair holding the
minimal second component, `none` on an empty dict. -/
def pyMinBySnd : List (List Char × ℚ) → Option (List Char × ℚ)
  | [] => none
  | p :: t =>
    match pyMinBySnd t with
    | none => some p
    | some q => if q.2 < p.2 then some q else some p

/-! ## `agent_decision_parser.py` — parse_agent_decision

The regular expressions of the source are embedded as explicit scanners with
`re.search` leftmost-match semantics.  Each scanner is written for the one
pattern it models (all of them are concatenations of literals, `\s+`, a
two-way alternation, or a trailing `[a-zA-Z0-9_]+` capture, so greedy
maximal-munch scanning coincides with the backtracking engine). -/

/-- Strip `pat` from the front of `s`, case-insensitively (`re.IGNORECASE`),
returning the remainder. -/
def ciPrefix : List Char → List Char → Option (List Char)
  | [], s => some s
  | _ :: _, [] => none
  | p :: ps, c :: t =>
    if pyLowerChar c = pyLowerChar p then ciPrefix ps t else none

/-- `[a-zA-Z0-9_]`, the explicit word class used by the source's patterns. -/
def isWordChar (c : Char) : Bool :=
  (97 ≤ c.toNat && c.toNat ≤ 122) || (65 ≤ c.toNat && c.toNat ≤ 90) ||
    (48 ≤ c.toNat && c.toNat ≤ 57) || c = '_'

/-- Split at the first `]`, returning the segment before it and the rest
after it; `none` when no `]` remains (the tag regex then fails). -/
def splitAtRB : List Char → Option (List Char × List Char)
  | [] => none
  | c :: t =>
    if c = ']' then some ([], t)
    else (splitAtRB t).map (fun p => (c :: p.1, p.2))

/-- Try `\[TAG:?\s*([^\]]+)\]` at the current position; on success return the
raw group (leading whitespace still present — every caller strips it, which
absorbs the `\s*`/group split) and the text after the closing bracket. -/
def tryTagAt (tag : List Char) : List Char → Option (List Char × List Char)
  | [] => none
  | c :: t =>
    if c = '[' then
      match ciPrefix tag t with
      | none => none
      | some r1 =>
        let r2 := match r1 with
          | ':' :: t2 => t2
          | _ => r1
        match splitAtRB r2 with
        | none => none
        | some (seg, rest) => if seg.isEmpty then none else some (seg, rest)
    else none

/-- `re.search` for the tag pattern: leftmost position where it matches. -/
def findTag (tag : List Char) : List Char → Option (List Char × List Char)
  | [] => none
  | c :: t =>
    match tryTagAt tag (c :: t) with
    | some r => some r
    | none => findTag tag t

/-- Try `delegate(?:\s+to)?\s+([a-zA-Z0-9_]+)` at the current position. -/
def tryDelegateAt (s : List Char) : Option (List Char) :=
  match ciPrefix (cs "delegate") s with
  | none => none
  | some r =>
    let branchA :=
      let r1 := r.dropWhile pyIsSpace
      if (r.takeWhile pyIsSpace).isEmpty then none
      else
        match ciPrefix (cs "to") r1 with
        | none => none
        | some r2 =>
          let r3 := r2.dropWhile pyIsSpace
          if (r2.takeWhile pyIsSpace).isEmpty then none
          else
            let w := r3.takeWhile isWordChar
            if w.isEmpty then none else some w
    match branchA with
    | some w => some w
    | none =>
      let r1 := r.dropWhile pyIsSpace
      if (r.takeWhile pyIsSpace).isEmpty then none
      else
        let w := r1.takeWhile isWordChar
        if w.isEmpty then none else some w

/-- `re.search` for the delegate pattern inside an action annotation. -/
def findDelegate : List Char → Option (List Char)
  | [] => none
  | c :: t =>
    match tryDelegateAt (c :: t) with
    | some w => some w
    | none => findDelegate t

/-- One piece of a natural-language pattern: a literal, `\s+`, or a binary
alternation (`this|it`, `over|off`). -/
inductive Pat : Type
  | lit (p : List Char)
  | ws
  | alt2 (a b : List Char)

/-- Match a pattern sequence at the current position (case-insensitive). -/
def seqMatchAt : List Pat → List Char → Bool
  | [], _ => true
  | .lit p :: ps, s =>
    match ciPrefix p s with
    | some r => seqMatchAt ps r
    | none => false
  | .ws :: ps, s =>
    if (s.takeWhile pyIsSpace).isEmpty then false
    else seqMatchAt ps (s.dropWhile pyIsSpace)
  | .alt2 a b :: ps, s =>
    (match ciPrefix a s with
     | some r => seqMatchAt ps r
     | none => false) ||
    (match ciPrefix b s with
     | some r => seqMatchAt ps r
     | none => false)

/-- `re.search` for a pattern sequence: true when it matches somewhere. -/
def seqSearch (ps : List Pat) : List Char → Bool
  | [] => seqMatchAt ps []
  | c :: t => seqMatchAt ps (c :: t) || seqSearch ps t

/-- The nine delegation phrases tried for an available agent `x`. -/
def delegationPatterns (x : List Char) : List (List Pat) :=
  [ [.lit (cs "ask"), .ws, .lit x],
    [.lit (cs "delegate"), .ws, .lit (cs "to"), .ws, .lit x],
    [.lit (cs "let"), .ws, .lit x],
    [.lit (cs "have"), .ws, .lit x],
    [.lit x, .ws, .lit (cs "should")],
    [.lit x, .ws, .lit (cs "will")],
    [.lit x, .ws, .lit (cs "can")],
    [.lit (cs "pass"), .ws, .lit (cs "to"), .ws, .lit x],
    [.lit (cs "hand"), .ws, .alt2 (cs "this") (cs "it"), .ws,
      .alt2 (cs "over") (cs "off"), .ws, .lit (cs "to"), .ws, .lit x] ]

/-- The natural-language finality phrases. -/
def finalPatterns : List (List Pat) :=
  [ [.lit (cs "final"), .ws, .lit (cs "answer")],
    [.lit (cs "in"), .ws, .lit (cs "conclusion")],
    [.lit (cs "to"), .ws, .lit (cs "summarize")],
    [.lit (cs "in"), .ws, .lit (cs "summary")],
    [.lit (cs "my"), .ws, .lit (cs "final"), .ws, .lit (cs "response")],
    [.lit (cs "the"), .ws, .lit (cs "answer"), .ws, .lit (cs "is")] ]

/-- Leftmost match of `PRE([a-zA-Z0-9_]+)POST` (case-insensitive), returning
the captured word. -/
def findCaptureWord (pre post : List Char) : List Char → Option (List Char)
  | [] => none
  | c :: t =>
    (match ciPrefix pre (c :: t) with
     | some r =>
       let w := r.takeWhile isWordChar
       if w.isEmpty then none
       else
         match ciPrefix post (r.drop w.length) with
         | some _ => some w
         | none => none
     | none => none).orElse (fun _ => findCaptureWord pre post t)

/-- The four tool-usage phrases, as (prefix, suffix) around the capture. -/
def toolUsagePatterns : List (List Char × List Char) :=
  [ (cs "i will use the ", cs " tool"),
    (cs "using the ", cs " tool"),
    (cs "let me ", cs " this"),
    (cs "i" ++ [quoteChar] ++ cs "ll ", cs " this") ]

/-- The context dict handed to the parser (missing keys are the `Option` /
default values the source's `.get` calls produce). -/
structure ParseCtx : Type where
  workflow_type : List Char
  available_agents : List (List Char)
  agent_roles : List (List Char × List Char)
  iteration : Nat
  workers : List (List Char)
  hub_agent : Option (List Char)
  tools_available : List (List Char)
deriving DecidableEq

/-- `AgentDecision`.  `tool_params_raw` keeps the raw `[TOOL]` body text; the
JSON / `key: value` decoding of that body is not embedded because no claim
depends on decoded tool parameters. -/
structure AgentDecision : Type where
  agent_name : List Char
  action_type : List Char
  target : Option (List Char)
  content : Option (List Char)
  reasoning : List Char
  tool_name : Option (List Char)
  tool_params_raw : List Char
deriving DecidableEq

/-- Strategy 1: explicit `[ACTION: ...]` annotations. -/
def stage1_action (content an : List Char) (ctx : ParseCtx) :
    Option AgentDecision :=
  match findTag (cs "ACTION") content with
  | none => none
  | some (g, _) =>
    let action := pyLower (pyStrip g)
    let delegated : Option AgentDecision :=
      match findDelegate action with
      | some target =>
        if target ∈ ctx.available_agents then
          let contentToSend :=
            match findTag (cs "CONTENT") content with
            | some (cg, _) => pyStrip cg
            | none => content
          some { agent_name := an, action_type := cs "delegate",
                 target := some target, content := some contentToSend,
                 reasoning := cs "Agent explicitly requested delegation to " ++ target,
                 tool_name := none, tool_params_raw := [] }
        else none
      | none => none
    match delegated with
    | some d => some d
    | none =>
      if [cs "final", cs "complete", cs "done", cs "finish"].any
          (fun w => containsSub action w) then
        some { agent_name := an, action_type := cs "final", target := none,
               content := some content,
               reasoning := cs "Agent explicitly marked this as the final response",
               tool_name := none, tool_params_raw := [] }
      else none

/-- Take the lazy `(.*?)` body of a `[TOOL:...]` block: everything before the
first (case-insensitive) `[/TOOL]`, or to the end of the text. -/
def upToCloseTool : List Char → List Char
  | [] => []
  | c :: t =>
    match ciPrefix (cs "[/TOOL]") (c :: t) with
    | some _ => []
    | none => c :: upToCloseTool t

/-- Strategy 2: explicit `[TOOL: name] ... [/TOOL]` blocks. -/
def stage2_tool (content an : List Char) : Option AgentDecision :=
  match findTag (cs "TOOL") content with
  | none => none
  | some (g, rest) =>
    some { agent_name := an, action_type := cs "use_tool", target := none,
           content := some content,
           reasoning := cs "Agent explicitly requested to use tool: " ++ pyStrip g,
           tool_name := some (pyStrip g),
           tool_params_raw := pyStrip (upToCloseTool rest) }

/-- Strategy 3a: natural-language delegation phrases, tried per available
agent in order, skipping the speaking agent. -/
def stage3_delegation (content an : List Char) (ctx : ParseCtx) :
    Option AgentDecision :=
  match ctx.available_agents.find? (fun x =>
      if x = an then false
      else (delegationPatterns x).any (fun ps => seqSearch ps content)) with
  | some x =>
    some { agent_name := an, action_type := cs "delegate", target := some x,
           content := some content,
           reasoning := cs "Agent implicitly indicated delegation to " ++ x ++
             cs " through natural language",
           tool_name := none, tool_params_raw := [] }
  | none => none

/-- Strategy 3b: natural-language finality phrases. -/
def stage4_final (content an : List Char) : Option AgentDecision :=
  if finalPatterns.any (fun ps => seqSearch ps content) then
    some { agent_name := an, action_type := cs "final", target := none,
           content := some content,
           reasoning := cs "Agent used language indicating a final response",
           tool_name := none, tool_params_raw := [] }
  else none

/-- Strategy 3c: tool-usage phrases matched against the declared tools; a
captured word that matches no tool falls through to the next phrase. -/
def toolUsageHit (content : List Char) (tools : List (List Char)) :
    List (List Char × List Char) → Option (List Char)
  | [] => none
  | (pre, post) :: rest =>
    match findCaptureWord pre post content with
    | some w =>
      (match tools.find? (fun tool =>
          containsSub (pyLower tool) (pyLower (pyStrip w))) with
       | some tool => some tool
       | none => toolUsageHit content tools rest)
    | none => toolUsageHit content tools rest

def stage5_toolUsage (content an : List Char) (ctx : ParseCtx) :
    Option AgentDecision :=
  match toolUsageHit content ctx.tools_available toolUsagePatterns with
  | some tool =>
    some { agent_name := an, action_type := cs "use_tool", target := none,
           content := some content,
           reasoning := cs "Agent implicitly indicated using tool: " ++ tool,
           tool_name := some tool, tool_params_raw := [] }
  | none => none

/-- Strategy 4: role/topology defaults. -/
def stage6_default (content an ar : List Char) (ctx : ParseCtx) :
    Option AgentDecision :=
  if ar = cs "supervisor" then
    if ctx.workflow_type = cs "supervisor" ∨ ctx.workflow_type = cs "agentic" then
      match ctx.workers, ctx.iteration with
      | w :: _, 0 =>
        some { agent_name := an, action_type := cs "delegate", target := some w,
               content := some content,
               reasoning := cs "Supervisor implicitly delegating in first iteration",
               tool_name := none, tool_params_raw := [] }
      | _, _ =>
        some { agent_name := an, action_type := cs "final", target := none,
               content := some content,
               reasoning := cs "Supervisor providing final response after worker delegations",
               tool_name := none, tool_params_raw := [] }
    else none
  else if ar = cs "worker" ∨ ar = cs "spoke" then
    if ctx.workflow_type = cs "supervisor" ∨ ctx.workflow_type = cs "agentic" ∨
        ctx.workflow_type = cs "hub_and_spoke" then
      match ctx.available_agents.find? (fun a =>
          alookup ctx.agent_roles a = some (cs "supervisor") ∨
            ctx.hub_agent = some a) with
      | some sup =>
        some { agent_name := an, action_type := cs "delegate",
               target := some sup, content := some content,
               reasoning := cs "Worker reporting back to " ++ sup,
               tool_name := none, tool_params_raw := [] }
      | none => none
    else none
  else none

/-- `AgentDecisionParser.parse_agent_decision`, the ordered-strategy parser.
The surrounding `try/except` of the source cannot fire in this embedding
(the embedded strategies are total), so the except-path respond decision is
unreachable and the chain ends in the default respond decision. -/
def parse_agent_decision (content an ar : List Char) (ctx : ParseCtx) :
    AgentDecision :=
  match stage1_action content an ctx with
  | some d => d
  | none =>
  match stage2_tool content an with
  | some d => d
  | none =>
  match stage3_delegation content an ctx with
  | some d => d
  | none =>
  match stage4_final content an with
  | some d => d
  | none =>
  match stage5_toolUsage content an ctx with
  | some d => d
  | none =>
  match stage6_default content an ar ctx with
  | some d => d
  | none =>
    { agent_name := an, action_type := cs "respond", target := none,
      content := some content, reasoning := cs "Default response",
      tool_name := none, tool_params_raw := [] }

/-! ## `langgraph_workflow_runner.py` — state machine pieces

`WorkflowState` / `AgentState` follow the TypedDicts of the source.  History
entries drop the `datetime.now()` timestamp (real time is outside the
embedding; no claim mentions timestamps).  The `metadata` dict is embedded by
the one key the runner reads from it, `role`.  `Option` results mark the
`KeyError` / `IndexError` paths of the source. -/

structure AgentSt : Type where
  messages : List (List Char × List Char)
  next_agent : Option (List Char)
  tools_used : List (List Char)
  outputs : List (List Char × List Char)
  metaRole : Option (List Char)
deriving DecidableEq

structure HistE : Type where
  agent : Option (List Char)
  action : List Char
  next : Option (List Char)
  target : Option (List Char)
  reasoning : Option (List Char)
deriving DecidableEq

structure WfState : Type where
  agents : List (List Char × AgentSt)
  input_query : List Char
  current_agent : Option (List Char)
  history : List HistE
  final_output : Option (List Char)
  execution_graph : List (List Char × List (List Char))
  iteration : Nat
deriving DecidableEq

/-- Python falsiness of an optional string (`if not current_agent`). -/
def strFalsy : Option (List Char) → Bool
  | none => true
  | some s => s.isEmpty

/-- `router_function` (the router node).  `none` is the `KeyError` the source
raises in the forcing branch when the current agent is missing from the
state. -/
def router_function (max_iterations : Nat) (s : WfState) : Option WfState :=
  let resolved : Option (List Char) :=
    if strFalsy s.current_agent then
      match s.agents with
      | [] => none
      | (k, _) :: _ => some k
    else s.current_agent
  match resolved with
  | none =>
    -- no agents at all: the source mutates a temporary dict and returns the
    -- state unchanged
    some s
  | some cur =>
    let nextA : Option (List Char) :=
      match alookup s.agents cur with
      | some a => a.next_agent
      | none => none
    let iter' := s.iteration + 1
    if iter' > max_iterations then
      match alookup s.agents cur with
      | none => none
      | some a =>
        some { s with
          agents := dictSet s.agents cur { a with next_agent := some (cs "final") },
          iteration := iter',
          history := s.history ++
            [{ agent := some cur, action := cs "max_iterations_reached",
               next := some (cs "final"), target := none, reasoning := none }] }
    else
      some { s with
        iteration := iter',
        history := s.history ++
          [{ agent := some cur, action := cs "route", next := nextA,
             target := none, reasoning := none }] }

/-- `_get_next_agent`, the conditional-edge function: returns the node to run
next and (on a valid delegation) updates `current_agent` in the state.
`none` is the `IndexError` on an empty agent dict. -/
def get_next_agent (s : WfState) : Option (List Char × WfState) :=
  if strFalsy s.current_agent then
    match s.agents with
    | [] => none
    | (k, _) :: _ => some (k, s)
  else
    match s.current_agent with
    | none => none
    | some cur =>
      let nextA : Option (List Char) :=
        match alookup s.agents cur with
        | some a => a.next_agent
        | none => none
      match nextA with
      | some na =>
        if ¬ na.isEmpty ∧ na ≠ cs "final" then
          if (alookup s.agents na).isSome then
            some (na, { s with current_agent := some na })
          else some (cs "final", s)
        else some (cs "final", s)
      | none => some (cs "final", s)

/-- `_process_agent_response`: record the model reply, parse the decision,
set `next_agent`, append history, and update the execution graph.  `none` is
the `KeyError` when `agent_name` is missing from the state. -/
def process_agent_response (workflow_type : List Char)
    (hub_agent : Option (List Char)) (s : WfState) (agent_name content : List Char) :
    Option WfState :=
  match alookup s.agents agent_name with
  | none => none
  | some ast =>
    let ast1 := { ast with
      messages := ast.messages ++ [(cs "assistant", content)],
      outputs := dictSet ast.outputs (cs "final") content }
    let agents1 := dictSet s.agents agent_name ast1
    let role := (ast1.metaRole).getD (cs "unknown")
    let ctx : ParseCtx :=
      { workflow_type := workflow_type,
        available_agents := dictKeys agents1,
        agent_roles := agents1.map (fun p => (p.1, (p.2.metaRole).getD (cs "unknown"))),
        iteration := s.iteration,
        workers := (agents1.filter (fun p => p.2.metaRole = some (cs "worker"))).map Prod.fst,
        hub_agent := hub_agent,
        tools_available := [] }
    let d := parse_agent_decision content agent_name role ctx
    let agents2 :=
      if d.action_type = cs "delegate" then
        let a1 := dictSet agents1 agent_name { ast1 with next_agent := d.target }
        match d.target with
        | some t =>
          (match alookup a1 t with
           | some tast =>
             (match d.content with
              | some c =>
                if c.isEmpty then a1
                else dictSet a1 t { tast with messages := tast.messages ++ [(cs "user", c)] }
              | none => a1)
           | none => a1)
        | none => a1
      else if d.action_type = cs "use_tool" then
        let tu := match d.tool_name with
          | some tn => if tn ∈ ast1.tools_used then ast1.tools_used
                       else ast1.tools_used ++ [tn]
          | none => ast1.tools_used
        dictSet agents1 agent_name
          { ast1 with tools_used := tu, next_agent := some agent_name }
      else
        dictSet agents1 agent_name { ast1 with next_agent := some (cs "final") }
    let eg1 :=
      if agent_name ∈ dictKeys s.execution_graph then s.execution_graph
      else s.execution_graph ++ [(agent_name, [])]
    let eg2 :=
      match d.target with
      | some t =>
        if ¬ t.isEmpty ∧ t ≠ cs "final" then
          match alookup eg1 agent_name with
          | some l => dictSet eg1 agent_name (l ++ [t])
          | none => eg1
        else eg1
      | none => eg1
    some { s with
      agents := agents2,
      history := s.history ++
        [{ agent := some agent_name, action := d.action_type, next := none,
           target := d.target, reasoning := some d.reasoning }],
      execution_graph := eg2 }

/-- `_create_initial_state` for the supervisor workflow type. -/
def initial_supervisor_state (query : List Char) (supervisor_name : List Char)
    (worker_names : List (List Char)) : WfState :=
  { agents :=
      (supervisor_name,
        { messages := [(cs "user", query)], next_agent := none,
          tools_used := [], outputs := [],
          metaRole := some (cs "supervisor") }) ::
      worker_names.map (fun w =>
        (w, { messages := [], next_agent := none, tools_used := [],
              outputs := [], metaRole := some (cs "worker") })),
    input_query := query,
    current_agent := some supervisor_name,
    history := [],
    final_output := none,
    execution_graph := [],
    iteration := 0 }

/-! ## `tools/tool_registry.py` — execute_tool

Python values reaching the validator are embedded as `PyVal`.  `execute_tool`
validates first; its execution block then evaluates `datetime.now()`, but the
module never imports `datetime`, so every call that passes validation raises
`NameError`, which the blanket `except Exception` turns into the error
envelope below — the handler itself is unreachable. -/

inductive PyVal : Type
  | vstr (s : List Char)
  | vint (n : Int)
  | vbool (b : Bool)
  | vlist (l : List PyVal)
  | vdict (m : List (List Char × PyVal))
  | vnone

-- Python `==` on the embedded values, mutually with its list and dict
-- variants; the enum membership test below is stated through it.
mutual

/-- Python `==` on the embedded values. -/
def pyValBeq : PyVal → PyVal → Bool
  | .vstr x, .vstr y => x == y
  | .vint x, .vint y => x == y
  | .vbool x, .vbool y => x == y
  | .vnone, .vnone => true
  | .vlist xs, .vlist ys => pyListBeq xs ys
  | .vdict xs, .vdict ys => pyDictBeq xs ys
  | _, _ => false

def pyListBeq : List PyVal → List PyVal → Bool
  | [], [] => true
  | a :: as_, b :: bs => pyValBeq a b && pyListBeq as_ bs
  | _, _ => false

def pyDictBeq : List (List Char × PyVal) → List (List Char × PyVal) → Bool
  | [], [] => true
  | (k1, v1) :: as_, (k2, v2) :: bs =>
    (k1 == k2 && pyValBeq v1 v2) && pyDictBeq as_ bs
  | _, _ => false

end

/-- Python `str()` for values that can appear in tool parameters.  Container
and `None` reprs are abbreviated: no tool schema in the sources feeds a
container through `str`, and no claim depends on that text. -/
def pyStr : PyVal → List Char
  | .vstr s => s
  | .vint n => cs (toString n)
  | .vbool b => if b then cs "True" else cs "False"
  | .vnone => cs "None"
  | .vlist _ => cs "[container]"
  | .vdict _ => cs "[container]"

/-- Decimal digits to a number, `none` unless nonempty and all digits. -/
def digitsToNat : List Char → Option Nat
  | [] => none
  | l => l.foldl (fun acc c =>
      match acc with
      | none => none
      | some n => if '0' ≤ c ∧ c ≤ '9' then some (n * 10 + (c.toNat - 48)) else none)
      (some 0)

/-- Python `int(str)`: optional sign and decimal digits, surrounding
whitespace allowed; `none` is the `ValueError`. -/
def parsePyInt (s : List Char) : Option Int :=
  match pyStrip s with
  | '-' :: ds => (digitsToNat ds).map (fun n => -(n : Int))
  | '+' :: ds => (digitsToNat ds).map (fun n => (n : Int))
  | ds => (digitsToNat ds).map (fun n => (n : Int))

/-- Python `int(value)`; `none` is the `ValueError`/`TypeError` the except
clause catches. -/
def intConv : PyVal → Option Int
  | .vint n => some n
  | .vbool b => some (if b then 1 else 0)
  | .vstr s => parsePyInt s
  | _ => none

/-- Python `float(value)`, reduced to the integral values the registry can
meet (no tool in the sources declares a `number` parameter and no claim
touches one; float strings are treated as conversion failures). -/
def floatConv : PyVal → Option PyVal
  | .vint n => some (.vint n)
  | .vbool b => some (.vint (if b then 1 else 0))
  | _ => none

/-- Python truthiness, used by `bool(value)`. -/
def pyTruthy : PyVal → Bool
  | .vstr s => ¬ s.isEmpty
  | .vint n => n ≠ 0
  | .vbool b => b
  | .vlist l => ¬ l.isEmpty
  | .vdict m => ¬ m.isEmpty
  | .vnone => false

/-- One entry of a tool's parameter schema (the `description` field is never
read by `execute_tool` and is omitted). -/
structure ParamDef : Type where
  ptype : Option (List Char)
  required : Option Bool
  default : Option PyVal
  enum : Option (List PyVal)

/-- The registered definition of a tool, reduced to the one field
`execute_tool` reads (name, description, `function_name` and the
confirmation/availability flags are carried but never consulted there). -/
structure ToolDef : Type where
  parameters : List (List Char × ParamDef)

/-- Outcome of an external tool handler (unreachable, see above). -/
inductive HandlerRes : Type
  | ok (v : PyVal)
  | exn (msg : List Char)

/-- A registry entry: definition plus the (sync or async) handler. -/
structure ToolEntry : Type where
  definition : ToolDef
  handler : List (List Char × PyVal) → HandlerRes

/-- The per-parameter step of `execute_tool`'s validation loop: the error
messages and processed-parameter additions this declared parameter
contributes. -/
def validateParam (parameters : List (List Char × PyVal)) (pname : List Char)
    (pd : ParamDef) : List (List Char) × List (List Char × PyVal) :=
  match alookup parameters pname with
  | none =>
    if pd.required.getD true then
      ([cs "Missing required parameter: " ++ pname], [])
    else
      match pd.default with
      | some d => ([], [(pname, d)])
      | none => ([], [])
  | some v =>
    let pt := pd.ptype.getD (cs "string")
    let conv : List (List Char) × List (List Char × PyVal) :=
      if pt = cs "string" then ([], [(pname, .vstr (pyStr v))])
      else if pt = cs "integer" then
        match intConv v with
        | some n => ([], [(pname, .vint n)])
        | none =>
          ([cs "Invalid type for parameter " ++ pname ++ cs ": expected " ++ pt], [])
      else if pt = cs "number" then
        match floatConv v with
        | some w => ([], [(pname, w)])
        | none =>
          ([cs "Invalid type for parameter " ++ pname ++ cs ": expected " ++ pt], [])
      else if pt = cs "boolean" then ([], [(pname, .vbool (pyTruthy v))])
      else if pt = cs "array" then
        match v with
        | .vlist l => ([], [(pname, .vlist l)])
        | _ => ([cs "Parameter " ++ pname ++ cs " must be an array"], [])
      else if pt = cs "object" then
        match v with
        | .vdict m => ([], [(pname, .vdict m)])
        | _ => ([cs "Parameter " ++ pname ++ cs " must be an object"], [])
      else ([], [(pname, v)])
    let enumErrs : List (List Char) :=
      match pd.enum with
      | some es =>
        if es.any (pyValBeq v) then []
        else [cs "Value for " ++ pname ++ cs " must be one of: " ++
          joinSep (cs ", ") (es.map pyStr)]
      | none => []
    (conv.1 ++ enumErrs, conv.2)

/-- The whole validation loop, in declared parameter order. -/
def validate_params (pdefs : List (List Char × ParamDef))
    (parameters : List (List Char × PyVal)) :
    List (List Char) × List (List Char × PyVal) :=
  pdefs.foldl (fun acc p =>
    let r := validateParam parameters p.1 p.2
    (acc.1 ++ r.1, acc.2 ++ r.2)) ([], [])

/-- The envelope produced by the un-imported `datetime`: `start_time =
datetime.now()` raises `NameError: name 'datetime' is not defined` inside the
`try`, and the `except Exception` clause wraps it. -/
def nameErrorEnvelope : List (List Char × PyVal) :=
  [(cs "error", .vstr (cs "Tool execution error: name " ++ [quoteChar] ++
      cs "datetime" ++ [quoteChar] ++ cs " is not defined")),
   (cs "success", .vbool false)]

/-- `ToolRegistry.execute_tool`. -/
def execute_tool (tools : List (List Char × ToolEntry)) (tool_name : List Char)
    (parameters : List (List Char × PyVal)) : List (List Char × PyVal) :=
  match alookup tools tool_name with
  | none =>
    [(cs "error", .vstr (cs "Tool " ++ tool_name ++ cs " not found")),
     (cs "success", .vbool false)]
  | some te =>
    let v := validate_params te.definition.parameters parameters
    if v.1 ≠ [] then
      [(cs "error", .vstr (cs "Parameter validation errors: " ++
          joinSep (cs "; ") v.1)),
       (cs "success", .vbool false)]
    else nameErrorEnvelope

/-- The `web_search` schema registered by `_load_default_tools` (`query` has
no `required` key, so `required` defaults to true). -/
def web_search_parameters : List (List Char × ParamDef) :=
  [(cs "query",
     { ptype := some (cs "string"), required := none, default := none, enum := none }),
   (cs "num_results",
     { ptype := some (cs "integer"), required := none, default := some (.vint 5),
       enum := none })]

/-! ## `optimizations.py` — LRUCache and cached_llm_call

`time.time()` is an explicit `now : ℚ` argument.  The cache value type is
generic, as in the source (`Generic[T]`); the LLM wrapper instantiates it
with `Option R`, whose `none` is Python's `None` — exactly the value the
wrapper's `is not None` test conflates with a miss. -/

structure LRUCache (V : Type) : Type where
  cache : List (List Char × (V × ℚ))
  access_times : List (List Char × ℚ)
  max_size : Nat
  ttl : ℚ

/-- `LRUCache.__init__`. -/
def lru_empty (V : Type) (max_size : Nat) (ttl : ℚ) : LRUCache V :=
  { cache := [], access_times := [], max_size := max_size, ttl := ttl }

/-- `LRUCache.get`: `none` for a missing or expired key (the expired entry is
deleted); a hit refreshes the access time. -/
def lru_get {V : Type} (c : LRUCache V) (now : ℚ) (k : List Char) :
    Option V × LRUCache V :=
  match alookup c.cache k with
  | none => (none, c)
  | some (v, expiry) =>
    if now > expiry then
      (none, { c with cache := dictDel c.cache k,
                      access_times := dictDel c.access_times k })
    else
      (some v, { c with access_times := dictSet c.access_times k now })

/-- `LRUCache._evict_lru`: drop the first entry holding the oldest access
time (a no-op on an empty access map, as in the source). -/
def evict_lru {V : Type} (c : LRUCache V) : LRUCache V :=
  match pyMinBySnd c.access_times with
  | none => c
  | some (oldest, _) =>
    { c with cache := dictDel c.cache oldest,
             access_times := dictDel c.access_times oldest }

/-- `LRUCache.put`: evict when full and the key is new, then store the entry
with expiry `now + ttl` and refresh the access time. -/
def lru_put {V : Type} (c : LRUCache V) (now : ℚ) (k : List Char) (v : V) :
    LRUCache V :=
  let c1 :=
    if c.max_size ≤ c.cache.length ∧ k ∉ dictKeys c.cache then evict_lru c
    else c
  { c1 with cache := dictSet c1.cache k (v, now + c1.ttl),
            access_times := dictSet c1.access_times k now }

/-- `LRUCache.update_ttl`. -/
def lru_update_ttl {V : Type} (c : LRUCache V) (now : ℚ) (k : List Char)
    (ttl' : ℚ) : Bool × LRUCache V :=
  match alookup c.cache k with
  | none => (false, c)
  | some (v, _) => (true, { c with cache := dictSet c.cache k (v, now + ttl') })

/-- `LRUCache.clear`. -/
def lru_clear {V : Type} (c : LRUCache V) : LRUCache V :=
  { c with cache := [], access_times := [] }

/-- `_create_cache_key`: the string that is md5-hashed —
`f"{func_name}:{json.dumps(args, sort_keys=True)}:{json.dumps(kwargs, sort_keys=True)}"`.
The hex digest itself is not embedded; the key is used only for identity, and
the digest is a function of this string. -/
def create_cache_key (func_name args_repr kwargs_repr : List Char) : List Char :=
  func_name ++ cs ":" ++ args_repr ++ cs ":" ++ kwargs_repr

/-- One call through the `cached_llm_call` wrapper: given the cache, the
current time, the cache key of the arguments and the value the wrapped
function would produce, return (observed result, new cache, whether the
wrapped function was invoked).  A cached Python `None` (`some none` from
`lru_get`) fails the wrapper's `is not None` test and is re-invoked. -/
def cached_llm_call_step {R : Type} (c : LRUCache (Option R)) (now : ℚ)
    (key : List Char) (fval : Option R) :
    Option R × LRUCache (Option R) × Bool :=
  match lru_get c now key with
  | (some (some r), c1) => (some r, c1, false)
  | (some none, c1) => (fval, lru_put c1 now key fval, true)
  | (none, c1) => (fval, lru_put c1 now key fval, true)

/-- The cache operations of the public interface, for invariant claims. -/
inductive CacheOp (V : Type) : Type
  | opGet (now : ℚ) (k : List Char)
  | opPut (now : ℚ) (k : List Char) (v : V)
  | opUpdateTtl (now : ℚ) (k : List Char) (ttl : ℚ)
  | opClear

def applyCacheOp {V : Type} (c : LRUCache V) : CacheOp V → LRUCache V
  | .opGet now k => (lru_get c now k).2
  | .opPut now k v => lru_put c now k v
  | .opUpdateTtl now k t => (lru_update_ttl c now k t).2
  | .opClear => lru_clear c

def applyCacheOps {V : Type} (ops : List (CacheOp V)) (c : LRUCache V) :
    LRUCache V :=
  ops.foldl applyCacheOp c

/-! ## `hybrid_workflow_engine.py` — convergence check

Python float arithmetic is embedded as exact rationals; every comparison a
theorem below rests on is far from the 0.3 threshold, so the float/rational
gap cannot flip it.  `history` entries are reduced to the one field the check
reads from them. -/

/-- `str.split()` (no separator): whitespace-delimited words, empties
dropped; fuelled by the input length, which each step strictly consumes. -/
def pySplitGo : Nat → List Char → List (List Char)
  | 0, _ => []
  | _, [] => []
  | fuel + 1, c :: t =>
    if pyIsSpace c then pySplitGo fuel t
    else
      let w := (c :: t).takeWhile (fun x => !(pyIsSpace x))
      let r := (c :: t).dropWhile (fun x => !(pyIsSpace x))
      w :: pySplitGo fuel r

def pySplit (s : List Char) : List (List Char) := pySplitGo s.length s

/-- `_calculate_difference`.  The division when both texts are nonempty yet
whitespace-only is the source's `ZeroDivisionError`; `ℚ` yields `0` there and
the theorems below exclude that case. -/
def calculate_difference (text1 text2 : List Char) : ℚ :=
  if text1.isEmpty || text2.isEmpty then 1
  else
    let len_diff : ℚ :=
      |((text1.length : ℚ) - (text2.length : ℚ))| /
        (max text1.length text2.length : ℚ)
    let w1 := pySplit (pyLower text1)
    let w2 := pySplit (pyLower text2)
    let shared := (w1.dedup.filter (fun w => w ∈ w2)).length
    let word_similarity : ℚ :=
      (shared : ℚ) / (max (pySplit text1).length (pySplit text2).length : ℚ)
    3 / 10 * len_diff + 7 / 10 * (1 - word_similarity)

/-- A team output dict as `_check_convergence` reads it: `final_output` plus
the `final_output` fields of its `history` entries (an absent or empty
history means the team is not tracked). -/
structure TeamOut : Type where
  final_output : Option (List Char)
  history : List (Option (List Char))
deriving DecidableEq

/-- A peer output: the `isinstance(output, dict)` test of the source splits
dict-shaped outputs from everything else. -/
inductive PeerOut : Type
  | pdict (output : Option (List Char)) (history : List (Option (List Char)))
  | nondict
deriving DecidableEq

/-- `_check_convergence`. -/
def check_convergence (team_outputs : List (List Char × TeamOut))
    (peer_outputs : List (List Char × PeerOut)) (iteration : Nat) : Bool :=
  if iteration = 0 then false
  else
    team_outputs.all (fun p =>
      match p.2.history.getLast? with
      | none => true
      | some prevE =>
        if calculate_difference (p.2.final_output.getD [])
            (prevE.getD []) > 3 / 10 then false else true)
    && peer_outputs.all (fun p =>
      match p.2 with
      | .nondict => true
      | .pdict out hist =>
        match hist.getLast? with
        | none => true
        | some prevE =>
          if calculate_difference (out.getD []) (prevE.getD []) > 3 / 10 then
            false
          else true)

/-- The difference scores `_check_convergence` actually compares against the
threshold: one per team with a nonempty history and one per dict-shaped peer
with a nonempty history, in traversal order. -/
def tracked_scores (team_outputs : List (List Char × TeamOut))
    (peer_outputs : List (List Char × PeerOut)) : List ℚ :=
  team_outputs.filterMap (fun p =>
    match p.2.history.getLast? with
    | none => none
    | some prevE =>
      some (calculate_difference (p.2.final_output.getD []) (prevE.getD [])))
  ++ peer_outputs.filterMap (fun p =>
    match p.2 with
    | .nondict => none
    | .pdict out hist =>
      match hist.getLast? with
      | none => none
      | some prevE => some (calculate_difference (out.getD []) (prevE.getD [])))

/-! ## `agent_prompt_creator.py` — agentic template enhancement

A configuration is embedded by the keys `_enhance_agent_config` reads;
`.copy()` carries every other key through unchanged, so they cannot affect
the idempotence claim.  `none` is the `KeyError` the source raises at
`enhanced_agent['prompt_template']` when that key is absent. -/

structure AgentCfg : Type where
  agentic_system_message : Option Bool
  can_delegate : Option Bool
  can_use_tools : Option Bool
  can_finalize : Option Bool
  autonomous_decisions : Option Bool
  system_message : Option (List Char)
  prompt_template : Option (List Char)
deriving DecidableEq

/-- `_has_agentic_instructions`: case-sensitive keyword scan. -/
def has_agentic_instructions (system_message : List Char) : Bool :=
  [cs "delegate to", cs "you can decide to", cs "you can use tools",
   cs "you can provide a final", cs "[ACTION:", cs "[TOOL:",
   cs "decision format", cs "Following this format"].any
    (fun kw => containsSub system_message kw)

/-- `get_agentic_system_instructions`. -/
def get_agentic_system_instructions (can_delegate can_use_tools can_finalize
    autonomous_decisions is_supervisor : Bool) : List Char :=
  let parts : List (List Char) :=
    [cs "## Agentic Decision Making",
     cs "You are an agentic AI that can make autonomous decisions about how to best accomplish tasks."] ++
    (if can_delegate then
      [if is_supervisor then
        cs "- You can delegate tasks to specialized workers by specifying [ACTION: delegate to worker_name]"
       else
        cs "- You can delegate to other agents by specifying [ACTION: delegate to agent_name]"]
     else []) ++
    (if can_use_tools then
      [cs "- You can use tools by specifying [TOOL: tool_name] followed by the parameters in JSON format"]
     else []) ++
    (if can_finalize then
      [cs "- You can provide a final answer by specifying [ACTION: final]"]
     else []) ++
    [cs "\n## Decision Format",
     cs "When making a decision, use this format:"] ++
    (if can_delegate then
      [cs "\nTo delegate:\n[ACTION: delegate to agent_name]\n[CONTENT:\nYour message to the agent, explaining what you want them to do.\n]\n"]
     else []) ++
    (if can_use_tools then
      [cs "\nTo use a tool:\n[TOOL: tool_name]\n\x7b\n    \"param1\": \"value1\",\n    \"param2\": \"value2\"\n\x7d\n[/TOOL]\n"]
     else []) ++
    (if can_finalize then
      [cs "\nTo provide a final answer:\n[ACTION: final]\nYour final answer or conclusion here.\n"]
     else []) ++
    (if autonomous_decisions then
      [cs "\nYou should make your own decisions about which action to take based on the context and user query."]
     else [])
  joinSep (cs "\n") parts

/-- `get_decision_instructions`. -/
def get_decision_instructions (can_delegate can_use_tools can_finalize
    is_supervisor : Bool) : List Char :=
  let parts : List (List Char) :=
    [cs "Based on the above, choose one of the following actions:"] ++
    (if can_delegate then
      [if is_supervisor then
        cs "- Delegate to a worker agent by writing [ACTION: delegate to worker_name]"
       else
        cs "- Delegate to another agent by writing [ACTION: delegate to agent_name]"]
     else []) ++
    (if can_use_tools then
      [cs "- Use a tool by writing [TOOL: tool_name] followed by parameters in JSON"]
     else []) ++
    (if can_finalize then
      [cs "- Provide a final answer by writing [ACTION: final]"]
     else [])
  joinSep (cs "\n") parts

/-- `str.replace(p, r)`: left-to-right, non-overlapping, all occurrences;
fuelled by the input length (each step strictly consumes input when the
pattern is nonempty, and the sources only replace nonempty patterns). -/
def replaceAllGo (p r : List Char) : Nat → List Char → List Char
  | 0, s => s
  | fuel + 1, s =>
    if ¬ p.isEmpty ∧ p.isPrefixOf s then
      r ++ replaceAllGo p r fuel (s.drop p.length)
    else
      match s with
      | [] => []
      | c :: t => c :: replaceAllGo p r fuel t

def replaceAll (p r s : List Char) : List Char := replaceAllGo p r s.length s

/-- The system-message step of `_enhance_agent_config`: inject the agentic
instructions unless the keyword scan already finds some. -/
def enhanced_system_message (cfg : AgentCfg) (is_supervisor : Bool) :
    Option (List Char) :=
  let sm := cfg.system_message.getD []
  if has_agentic_instructions sm then cfg.system_message
  else
    let instr := get_agentic_system_instructions (cfg.can_delegate.getD true)
      (cfg.can_use_tools.getD true) (cfg.can_finalize.getD is_supervisor)
      (cfg.autonomous_decisions.getD true) is_supervisor
    if ¬ sm.isEmpty then some (sm ++ cs "\n\n" ++ instr) else some instr

/-- The prompt-template step of `_enhance_agent_config`: the three
placeholder substitutions; `none` is the `KeyError` at
`enhanced_agent['prompt_template']` when the key is absent. -/
def enhanced_prompt_template (cfg : AgentCfg) (is_supervisor : Bool) :
    Option (List Char) :=
  let pt0 := cfg.prompt_template.getD []
  let pt1opt : Option (List Char) :=
    if containsSub pt0 (cs "{make_decision}") then
      some (replaceAll (cs "{make_decision}")
        (get_decision_instructions (cfg.can_delegate.getD true)
          (cfg.can_use_tools.getD true) (cfg.can_finalize.getD is_supervisor)
          is_supervisor) pt0)
    else cfg.prompt_template
  match pt1opt with
  | none => none
  | some pt1 =>
    let pt2 :=
      if containsSub pt1 (cs "{available_tools}") then
        replaceAll (cs "{available_tools}")
          (cs "You" ++ [quoteChar] ++ cs "ll be provided with available tools at runtime.") pt1
      else pt1
    let pt3 :=
      if containsSub pt2 (cs "{available_agents}") then
        replaceAll (cs "{available_agents}")
          (cs "You" ++ [quoteChar] ++ cs "ll be provided with available agents at runtime.") pt2
      else pt2
    some pt3

/-- `_enhance_agent_config`. -/
def enhance_agent_config (cfg : AgentCfg) (is_supervisor : Bool) :
    Option AgentCfg :=
  if cfg.agentic_system_message = some false then some cfg
  else
    match enhanced_prompt_template cfg is_supervisor with
    | none => none
    | some pt =>
      some { cfg with
        system_message := enhanced_system_message cfg is_supervisor,
        prompt_template := some pt }

/-! ## `agentic_workflow_routes.py` — has_cycle

The recursive `dfs` with its shared `visited` / `rec_stack` sets becomes a
fuelled function on an explicit state (Python's recursion always terminates
because `dfs` is only entered on unvisited nodes; the fuel is a structural
stand-in for that argument, and `dfsAdequate` below proves the bound used by
`has_cycle` is never exhausted).  `none` marks fuel exhaustion, which the
adequacy lemma rules out. -/

/-- A directed graph as the route handler receives it: node → neighbour list. -/
def DGraph : Type := List (List Char × List (List Char))

/-- `graph.get(node, [])`. -/
def adj (g : DGraph) (n : List Char) : List (List Char) :=
  (alookup g n).getD []

/-- The iteration order of `for node in graph`. -/
def gkeys (g : DGraph) : List (List Char) := dictKeys g

/-- Every node name occurring anywhere in the graph (for fuel accounting). -/
def mentioned (g : DGraph) : List (List Char) :=
  gkeys g ++ (g.map Prod.snd).flatten

/-- The largest neighbour-list length (for fuel accounting). -/
def maxAdj (g : DGraph) : Nat :=
  (g.map (fun p => p.2.length)).foldr max 0

/-- The `visited` and `rec_stack` sets of the source's `dfs`. -/
structure DfsSt : Type where
  visited : List (List Char)
  stack : List (List Char)
deriving DecidableEq

/-- What the embedded `dfs` is currently doing: entering a node, or walking
the remainder of a neighbour list. -/
inductive DfsTask : Type
  | visit (n : List Char)
  | expl (l : List (List Char))

/-- The body of `dfs`: entering a node marks it visited and on-stack and
walks its neighbours; a neighbour on the stack reports a cycle at once; an
unvisited neighbour is entered recursively; finishing a node pops it from
the stack. -/
def dfsGo (g : DGraph) : Nat → DfsTask → DfsSt → Option (Bool × DfsSt)
  | 0, _, _ => none
  | fuel + 1, .visit n, s =>
    match dfsGo g fuel (.expl (adj g n)) ⟨n :: s.visited, n :: s.stack⟩ with
    | none => none
    | some (true, s2) => some (true, s2)
    | some (false, s2) => some (false, ⟨s2.visited, s2.stack.erase n⟩)
  | _ + 1, .expl [], s => some (false, s)
  | fuel + 1, .expl (m :: ms), s =>
    if m ∈ s.visited then
      if m ∈ s.stack then some (true, s)
      else dfsGo g fuel (.expl ms) s
    else
      match dfsGo g fuel (.visit m) s with
      | none => none
      | some (true, s1) => some (true, s1)
      | some (false, s1) => dfsGo g fuel (.expl ms) s1

/-- The top-level loop `for node in graph: if node not in visited: ...`. -/
def hasCycleGo (g : DGraph) (fuel : Nat) :
    List (List Char) → DfsSt → Option Bool
  | [], _ => some false
  | n :: ns, s =>
    if n ∈ s.visited then hasCycleGo g fuel ns s
    else
      match dfsGo g fuel (.visit n) s with
      | none => none
      | some (true, _) => some true
      | some (false, s1) => hasCycleGo g fuel ns s1

/-- Fuel that `dfsAdequate` proves sufficient for any start state. -/
def fuelBound (g : DGraph) : Nat :=
  (maxAdj g + 2) * (mentioned g).length + 1

/-- `has_cycle`. -/
def has_cycle (g : DGraph) : Bool :=
  (hasCycleGo g (fuelBound g) (gkeys g) ⟨[], []⟩).getD false

/-- The edge relation of the graph. -/
def edgeRel (g : DGraph) (a b : List Char) : Prop := b ∈ adj g a

/-- "The graph contains a (directed) cycle": some node reaches itself by one
or more edges; a self-loop is the one-step case. -/
def hasCycleSpec (g : DGraph) : Prop :=
  ∃ a, Relation.TransGen (edgeRel g) a a

/-- A node that is visited and off the recursion stack ("black": the source's
`dfs` has fully finished it). -/
def Black (s : DfsSt) (x : List Char) : Prop :=
  x ∈ s.visited ∧ x ∉ s.stack

/-- Finished nodes only step to finished nodes (run invariant of the
false-returning executions). -/
def BlackInv (g : DGraph) (s : DfsSt) : Prop :=
  ∀ x, Black s x → ∀ m, edgeRel g x m → Black s m

/-- No finished node lies on a directed cycle. -/
def NoBlackCycle (g : DGraph) (s : DfsSt) : Prop :=
  ∀ x, Black s x → ¬ Relation.TransGen (edgeRel g) x x

/-- The recursion stack only holds visited nodes. -/
def StackSub (s : DfsSt) : Prop := ∀ x ∈ s.stack, x ∈ s.visited

/-- How many graph-mentioned nodes are still unvisited (the decreasing
measure behind the fuel bound). -/
def uCount (g : DGraph) (s : DfsSt) : Nat :=
  ((mentioned g).dedup.filter (fun x => x ∉ s.visited)).length

/-! ## Concrete instances used by witnesses and counterexamples -/

/-- A supervisor agent state whose own decision says `w1`. -/
def c1Ast : AgentSt :=
  { messages := [], next_agent := some (cs "w1"), tools_used := [],
    outputs := [], metaRole := some (cs "supervisor") }

/-- A workflow state sitting at the iteration cap (max_iterations = 5,
counter already 5: the next router pass is the sixth). -/
def c1State : WfState :=
  { agents := [(cs "s", c1Ast)], input_query := [],
    current_agent := some (cs "s"), history := [], final_output := none,
    execution_graph := [], iteration := 5 }

/-- A supervisor/worker parse context with agents `s`, `w1`, `w2`. -/
def c2Ctx : ParseCtx :=
  { workflow_type := cs "supervisor",
    available_agents := [cs "s", cs "w1", cs "w2"],
    agent_roles := [(cs "s", cs "supervisor"), (cs "w1", cs "worker"),
                    (cs "w2", cs "worker")],
    iteration := 0, workers := [cs "w1", cs "w2"], hub_agent := none,
    tools_available := [] }

/-- Scenario A (supervisor `s`, workers `w1`, `w2`): the runner's state after
each node of the run in which the supervisor delegates to `w1`, `w1` replies
with plain prose, and the supervisor then emits `[ACTION: final]`. -/
def scA0 : WfState := initial_supervisor_state (cs "q") (cs "s") [cs "w1", cs "w2"]

def scA1 : Option WfState :=
  process_agent_response (cs "supervisor") none scA0 (cs "s")
    (cs "[ACTION: delegate to w1]")

def scA2 : Option WfState := scA1.bind (router_function 5)

def scA2d : Option (List Char × WfState) := scA2.bind get_next_agent

def scA3 : Option WfState :=
  (scA2d.map Prod.snd).bind (fun s =>
    process_agent_response (cs "supervisor") none s (cs "w1")
      (cs "Here is my analysis of the data."))

def scA4 : Option WfState := scA3.bind (router_function 5)

def scA4d : Option (List Char × WfState) := scA4.bind get_next_agent

def scA5 : Option WfState :=
  (scA4d.map Prod.snd).bind (fun s =>
    process_agent_response (cs "supervisor") none s (cs "s")
      (cs "[ACTION: final]"))

def scA6 : Option WfState := scA5.bind (router_function 5)

def scA6d : Option (List Char × WfState) := scA6.bind get_next_agent

/-- The registered `web_search` tool (the handler is the mock of the source;
it is unreachable, see `execute_tool`). -/
def web_search_entry : ToolEntry :=
  { definition := { parameters := web_search_parameters },
    handler := fun _ => .ok .vnone }

def demo_registry : List (List Char × ToolEntry) :=
  [(cs "web_search", web_search_entry)]

/-- A worker configuration with every capability keyword left to its default
(delegation and tool use on). -/
def c9CfgOn : AgentCfg :=
  { agentic_system_message := none, can_delegate := none,
    can_use_tools := none, can_finalize := none,
    autonomous_decisions := none, system_message := some [],
    prompt_template := some [] }

/-- A worker configuration with delegation and tool use disabled (and
finalisation defaulting to false for a non-supervisor). -/
def c9Cfg : AgentCfg :=
  { agentic_system_message := none, can_delegate := some false,
    can_use_tools := some false, can_finalize := none,
    autonomous_decisions := none, system_message := some [],
    prompt_template := some [] }

/-! ## General lemmas -/

theorem alookup_dictSet_self {α β : Type} [DecidableEq α]
    (m : List (α × β)) (k : α) (v : β) : alookup (dictSet m k v) k = some v := by
  induction m with
  | nil => simp [dictSet, alookup]
  | cons p t ih =>
    obtain ⟨k', v'⟩ := p
    by_cases h : k' = k
    · subst h; simp [dictSet, alookup]
    · simp [dictSet, alookup, h, ih]

theorem alookup_mem {α β : Type} [DecidableEq α]
    {m : List (α × β)} {k : α} {v : β} (h : alookup m k = some v) : (k, v) ∈ m := by
  induction m with
  | nil => simp [alookup] at h
  | cons p t ih =>
    obtain ⟨k', v'⟩ := p
    by_cases hk : k' = k
    · subst hk
      simp [alookup] at h
      simp [h]
    · simp [alookup, hk] at h
      exact List.mem_cons_of_mem _ (ih h)

theorem containsSub_infix_iff (hay needle : List Char) :
    containsSub hay needle = true ↔ needle <:+: hay := by
  induction hay with
  | nil =>
    rw [containsSub]
    simp [List.isPrefixOf_iff_prefix]
  | cons c t ih =>
    rw [containsSub]
    simp only [Bool.or_eq_true, List.isPrefixOf_iff_prefix, ih]
    constructor
    · rintro (h | h)
      · exact h.isInfix
      · exact h.trans (List.suffix_cons c t).isInfix
    · rintro ⟨pre, post, hph⟩
      cases pre with
      | nil => left; exact ⟨post, by simpa using hph⟩
      | cons x xs =>
        right
        have h2 : xs ++ needle ++ post = t := by
          simp only [List.cons_append] at hph
          injection hph
        exact ⟨xs, post, h2⟩

theorem infix_joinSep {sep : List Char} {l : List (List Char)} {x : List Char}
    (hx : x ∈ l) : x <:+: joinSep sep l := by
  induction l with
  | nil => simp at hx
  | cons y t ih =>
    cases t with
    | nil =>
      simp at hx
      subst hx
      simp [joinSep]
    | cons z t2 =>
      rcases List.mem_cons.mp hx with h | h
      · subst h
        rw [joinSep]
        have hp : x <+: x ++ sep ++ joinSep sep (z :: t2) :=
          ⟨sep ++ joinSep sep (z :: t2), by simp⟩
        exact hp.isInfix
      · rw [joinSep]
        exact ((ih h).trans (List.suffix_append _ _).isInfix).trans
          (by simpa using (List.suffix_append _ _).isInfix)

theorem containsSub_of_mem_joinSep {sep : List Char} {l : List (List Char)}
    {x : List Char} (hx : x ∈ l) (pre : List Char) :
    containsSub (pre ++ joinSep sep l) x = true := by
  rw [containsSub_infix_iff]
  exact (infix_joinSep hx).trans (List.suffix_append pre _).isInfix

theorem containsSub_append_left {t n : List Char} (pre : List Char)
    (h : containsSub t n = true) : containsSub (pre ++ t) n = true := by
  rw [containsSub_infix_iff] at h ⊢
  exact h.trans (List.suffix_append pre t).isInfix

/-! ## C1 — router iteration cap -/

/-- C1: for max_iterations = N, any router pass entered with the iteration
counter already at N or above (the (N+1)-th pass starts from counter N)
increments the counter and forces the current agent's `next_agent` to
`"final"`, whatever `next_agent` the agent's own decision had set (`ast` and
its `next_agent` are arbitrary). -/
theorem router_forces_final_after_cap
    (N : Nat) (s : WfState) (a : List Char) (ast : AgentSt)
    (hcur : s.current_agent = some a) (hne : a ≠ [])
    (hlook : alookup s.agents a = some ast) (hit : N ≤ s.iteration) :
    ∃ s', router_function N s = some s' ∧
      alookup s'.agents a = some { ast with next_agent := some (cs "final") } ∧
      s'.iteration = s.iteration + 1 := by
  have hfalsy : strFalsy s.current_agent = false := by
    rw [hcur]
    cases a with
    | nil => exact absurd rfl hne
    | cons c t => rfl
  have hgt : s.iteration + 1 > N := Nat.lt_succ_of_le hit
  refine ⟨{ s with
      agents := dictSet s.agents a { ast with next_agent := some (cs "final") },
      iteration := s.iteration + 1,
      history := s.history ++
        [{ agent := some a, action := cs "max_iterations_reached",
           next := some (cs "final"), target := none, reasoning := none }] },
    ?_, ?_, ?_⟩
  · rw [router_function]
    have hfa : strFalsy (some a) = false := by rw [← hcur]; exact hfalsy
    simp only [hcur, hfa, Bool.false_eq_true, if_false, hlook, hgt, if_pos]
  · exact alookup_dictSet_self _ _ _
  · rfl

/-- C1 witness: with max_iterations = 5 and the counter already at 5, the
sixth router pass overrides the supervisor's decided `next_agent = w1` with
`final` and bumps the counter to 6. -/
theorem router_forces_final_after_cap_witness :
    ∃ s', router_function 5 c1State = some s' ∧
      alookup s'.agents (cs "s") =
        some { c1Ast with next_agent := some (cs "final") } ∧
      s'.iteration = 5 + 1 :=
  router_forces_final_after_cap 5 c1State (cs "s") c1Ast rfl (by decide) rfl
    (by decide)

/-! ## C5 — execute_tool execution envelope -/

/-- C5 (code bug): for every registered tool and every parameter map that
passes validation, `execute_tool` does not invoke the handler and does not
build the success envelope: `start_time = datetime.now()` evaluates a name
the module never imports, and the resulting `NameError` is caught into the
failure envelope.  (The caught-never-propagated half of the claim is what
still holds; the success/execution_time half cannot be reached.) -/
theorem execute_tool_validated_call_hits_name_error
    (tools : List (List Char × ToolEntry)) (name : List Char) (te : ToolEntry)
    (params : List (List Char × PyVal))
    (hlook : alookup tools name = some te)
    (hvalid : (validate_params te.definition.parameters params).1 = []) :
    execute_tool tools name params = nameErrorEnvelope := by
  rw [execute_tool]
  simp only [hlook, hvalid, ne_eq, not_true_eq_false, if_false]

/-- C5 witness: `web_search` called with valid parameters returns the caught
`NameError` envelope instead of a success envelope. -/
theorem execute_tool_validated_call_hits_name_error_witness :
    execute_tool demo_registry (cs "web_search")
      [(cs "query", .vstr (cs "x")), (cs "num_results", .vint 3)] =
      nameErrorEnvelope :=
  execute_tool_validated_call_hits_name_error demo_registry (cs "web_search")
    web_search_entry _ rfl rfl

/-! ## C4 — execute_tool parameter validation -/

theorem validate_params_fst (pdefs : List (List Char × ParamDef))
    (params : List (List Char × PyVal)) :
    (validate_params pdefs params).1 =
      (pdefs.map (fun p => (validateParam params p.1 p.2).1)).flatten := by
  rw [validate_params]
  suffices h : ∀ (a : List (List Char)) (b : List (List Char × PyVal)),
      (pdefs.foldl (fun acc p =>
        let r := validateParam params p.1 p.2
        (acc.1 ++ r.1, acc.2 ++ r.2)) (a, b)).1 =
      a ++ (pdefs.map (fun p => (validateParam params p.1 p.2).1)).flatten by
    simpa using h [] []
  induction pdefs with
  | nil => intro a b; simp
  | cons p t ih =>
    intro a b
    simp only [List.foldl_cons, List.map_cons, List.flatten_cons, ih,
      List.append_assoc]

/-- C4: validation aggregates the violations of every declared parameter
into the single returned error — whichever declared parameter produces an
error message (missing required, type mismatch, enum violation: all of
`validateParam`'s messages), that message appears in the one error string of
the failure envelope, regardless of how many other violations exist and
where the parameter sits in the declaration order. -/
theorem execute_tool_aggregates_all_violations
    (tools : List (List Char × ToolEntry)) (name : List Char) (te : ToolEntry)
    (params : List (List Char × PyVal)) (pname : List Char) (pdef : ParamDef)
    (e : List Char)
    (hlook : alookup tools name = some te)
    (hmem : (pname, pdef) ∈ te.definition.parameters)
    (herr : e ∈ (validateParam params pname pdef).1) :
    ∃ msg, execute_tool tools name params =
      [(cs "error", .vstr msg), (cs "success", .vbool false)] ∧
      containsSub msg e = true := by
  have hmemflat :
      e ∈ (te.definition.parameters.map
        (fun p => (validateParam params p.1 p.2).1)).flatten := by
    rw [List.mem_flatten]
    exact ⟨_, List.mem_map_of_mem _ hmem, herr⟩
  have hne : (validate_params te.definition.parameters params).1 ≠ [] := by
    rw [validate_params_fst]
    exact List.ne_nil_of_mem hmemflat
  refine ⟨cs "Parameter validation errors: " ++
    joinSep (cs "; ") (validate_params te.definition.parameters params).1,
    ?_, ?_⟩
  · rw [execute_tool]
    simp only [hlook, hne, ne_eq, not_false_eq_true, if_true]
  · rw [validate_params_fst]
    exact containsSub_of_mem_joinSep hmemflat _

/-- C4 witness: `web_search` (required string `query`) called with `{}`
returns a failure envelope whose error message names `query`. -/
theorem execute_tool_aggregates_all_violations_witness :
    ∃ msg, execute_tool demo_registry (cs "web_search") [] =
      [(cs "error", .vstr msg), (cs "success", .vbool false)] ∧
      containsSub msg (cs "Missing required parameter: query") = true :=
  execute_tool_aggregates_all_violations demo_registry (cs "web_search")
    web_search_entry [] (cs "query")
    { ptype := some (cs "string"), required := none, default := none,
      enum := none }
    (cs "Missing required parameter: query") rfl
    (List.mem_cons_self _ _) (by decide)

/-! ## C8 — LLM response cache -/

theorem evict_lru_ttl {V : Type} (c : LRUCache V) : (evict_lru c).ttl = c.ttl := by
  rw [evict_lru]
  cases hm : pyMinBySnd c.access_times with
  | none => rfl
  | some p => rfl

theorem lru_put_cache_lookup {V : Type} (c : LRUCache V) (now : ℚ)
    (k : List Char) (v : V) :
    alookup (lru_put c now k v).cache k = some (v, now + c.ttl) := by
  simp only [lru_put]
  have httl :
      (if c.max_size ≤ c.cache.length ∧ k ∉ dictKeys c.cache then evict_lru c
        else c).ttl = c.ttl := by
    by_cases h : c.max_size ≤ c.cache.length ∧ k ∉ dictKeys c.cache
    · rw [if_pos h, evict_lru_ttl]
    · rw [if_neg h]
  rw [alookup_dictSet_self, httl]

/-- C8 (amended): for a wrapped function whose Python result is not `None`,
a first call on an absent key invokes the function and stores the result;
a second call with the same arguments within the TTL returns the cached
value without invoking the function (the value the function would now
produce, `fv1`, is irrelevant); a call after the TTL has expired invokes the
function again.  The key is `create_cache_key` of the function name and the
sorted-JSON argument encodings, identical for identical arguments. -/
theorem cache_idempotence_within_ttl {R : Type} (c : LRUCache (Option R))
    (fname argsj kwargsj : List Char) (r : R) (t0 t1 t2 : ℚ)
    (fv1 fv2 : Option R)
    (habsent : alookup c.cache (create_cache_key fname argsj kwargsj) = none)
    (h1 : t1 ≤ t0 + c.ttl) (h2 : t0 + c.ttl < t2) :
    (cached_llm_call_step c t0 (create_cache_key fname argsj kwargsj)
        (some r)).2.2 = true ∧
    (cached_llm_call_step c t0 (create_cache_key fname argsj kwargsj)
        (some r)).1 = some r ∧
    (cached_llm_call_step
        (cached_llm_call_step c t0 (create_cache_key fname argsj kwargsj)
          (some r)).2.1
        t1 (create_cache_key fname argsj kwargsj) fv1).1 = some r ∧
    (cached_llm_call_step
        (cached_llm_call_step c t0 (create_cache_key fname argsj kwargsj)
          (some r)).2.1
        t1 (create_cache_key fname argsj kwargsj) fv1).2.2 = false ∧
    (cached_llm_call_step
        (cached_llm_call_step c t0 (create_cache_key fname argsj kwargsj)
          (some r)).2.1
        t2 (create_cache_key fname argsj kwargsj) fv2).2.2 = true := by
  set k := create_cache_key fname argsj kwargsj with hk
  have hget0 : lru_get c t0 k = (none, c) := by
    rw [lru_get, habsent]
  have hstep0 : cached_llm_call_step c t0 k (some r) =
      (some r, lru_put c t0 k (some r), true) := by
    rw [cached_llm_call_step, hget0]
  have hc1 : alookup (lru_put c t0 k (some r)).cache k =
      some (some r, t0 + c.ttl) := lru_put_cache_lookup c t0 k (some r)
  have hget1 : (lru_get (lru_put c t0 k (some r)) t1 k).1 = some (some r) := by
    rw [lru_get, hc1]
    simp only [not_lt.mpr h1, if_false]
  have hget2 : (lru_get (lru_put c t0 k (some r)) t2 k).1 = none := by
    rw [lru_get, hc1]
    simp only [h2, if_true]
  refine ⟨by rw [hstep0], by rw [hstep0], ?_, ?_, ?_⟩
  · rw [hstep0]
    rw [cached_llm_call_step]
    rcases hg : lru_get (lru_put c t0 k (some r)) t1 k with ⟨v, c'⟩
    have : v = some (some r) := by rw [← hget1, hg]
    subst this
    rfl
  · rw [hstep0]
    rw [cached_llm_call_step]
    rcases hg : lru_get (lru_put c t0 k (some r)) t1 k with ⟨v, c'⟩
    have : v = some (some r) := by rw [← hget1, hg]
    subst this
    rfl
  · rw [hstep0]
    rw [cached_llm_call_step]
    rcases hg : lru_get (lru_put c t0 k (some r)) t2 k with ⟨v, c'⟩
    have : v = none := by rw [← hget2, hg]
    subst this
    rfl

/-- C8 witness: a concrete run of the three calls. -/
theorem cache_idempotence_within_ttl_witness :
    (cached_llm_call_step (lru_empty (Option Nat) 1000 3600) 0
        (create_cache_key (cs "generate") (cs "[]") (cs "{}")) (some 5)).2.2 =
      true ∧
    (cached_llm_call_step (lru_empty (Option Nat) 1000 3600) 0
        (create_cache_key (cs "generate") (cs "[]") (cs "{}")) (some 5)).1 =
      some 5 ∧
    (cached_llm_call_step
        (cached_llm_call_step (lru_empty (Option Nat) 1000 3600) 0
          (create_cache_key (cs "generate") (cs "[]") (cs "{}")) (some 5)).2.1
        (0 + (lru_empty (Option Nat) 1000 3600).ttl)
        (create_cache_key (cs "generate") (cs "[]") (cs "{}")) (some 7)).1 =
      some 5 ∧
    (cached_llm_call_step
        (cached_llm_call_step (lru_empty (Option Nat) 1000 3600) 0
          (create_cache_key (cs "generate") (cs "[]") (cs "{}")) (some 5)).2.1
        (0 + (lru_empty (Option Nat) 1000 3600).ttl)
        (create_cache_key (cs "generate") (cs "[]") (cs "{}")) (some 7)).2.2 =
      false ∧
    (cached_llm_call_step
        (cached_llm_call_step (lru_empty (Option Nat) 1000 3600) 0
          (create_cache_key (cs "generate") (cs "[]") (cs "{}")) (some 5)).2.1
        (0 + (lru_empty (Option Nat) 1000 3600).ttl + 1)
        (create_cache_key (cs "generate") (cs "[]") (cs "{}"))
        (some 7)).2.2 = true :=
  cache_idempotence_within_ttl (lru_empty (Option Nat) 1000 3600)
    (cs "generate") (cs "[]") (cs "{}") 5 0
    (0 + (lru_empty (Option Nat) 1000 3600).ttl)
    (0 + (lru_empty (Option Nat) 1000 3600).ttl + 1) (some 7) (some 7) rfl
    (le_refl _) (lt_add_one _)

/-- C8 counterexample: the claim as stated fails when the wrapped function's
result is Python `None` — the cached `None` fails the wrapper's
`is not None` test, so a second call with identical arguments inside the TTL
invokes the wrapped function again. -/
theorem cache_none_result_reinvoked_cex :
    (cached_llm_call_step (lru_empty (Option Nat) 1000 3600) 0
        (create_cache_key (cs "generate") (cs "[]") (cs "{}")) none).2.2 =
      true ∧
    (cached_llm_call_step
        (cached_llm_call_step (lru_empty (Option Nat) 1000 3600) 0
          (create_cache_key (cs "generate") (cs "[]") (cs "{}")) none).2.1
        1 (create_cache_key (cs "generate") (cs "[]") (cs "{}"))
        none).2.2 = true := by
  refine ⟨rfl, ?_⟩
  norm_num [cached_llm_call_step, lru_get, lru_put, lru_empty, alookup,
    dictSet, dictKeys, evict_lru, pyMinBySnd]

/-! ## C10 — LRU cache size/keyset invariant -/

theorem dictKeys_dictSet_mem {α β : Type} [DecidableEq α]
    {m : List (α × β)} {k : α} (v : β) (h : k ∈ dictKeys m) :
    dictKeys (dictSet m k v) = dictKeys m := by
  induction m with
  | nil => simp [dictKeys] at h
  | cons p t ih =>
    obtain ⟨k', v'⟩ := p
    by_cases hk : k' = k
    · subst hk; simp [dictSet, dictKeys]
    · rcases List.mem_cons.mp h with h1 | h1
      · exact absurd h1.symm hk
      · simp only [dictSet, hk, if_false, dictKeys, List.map_cons]
        rw [show List.map Prod.fst (dictSet t k v) = dictKeys (dictSet t k v)
          from rfl, ih h1]
        rfl

theorem dictKeys_cons {α β : Type} (k : α) (v : β) (t : List (α × β)) :
    dictKeys ((k, v) :: t) = k :: dictKeys t := rfl

theorem dictKeys_dictSet_notMem {α β : Type} [DecidableEq α]
    {m : List (α × β)} {k : α} (v : β) (h : k ∉ dictKeys m) :
    dictKeys (dictSet m k v) = dictKeys m ++ [k] := by
  induction m with
  | nil => simp [dictSet, dictKeys]
  | cons p t ih =>
    obtain ⟨k', v'⟩ := p
    rw [dictKeys_cons] at h
    have hk : k' ≠ k := fun he => h (he ▸ List.mem_cons_self _ _)
    have ht : k ∉ dictKeys t := fun he => h (List.mem_cons_of_mem _ he)
    simp only [dictSet, hk, if_false]
    rw [dictKeys_cons, dictKeys_cons, ih ht]
    rfl

theorem dictKeys_dictDel {β : Type}
    (m : List (List Char × β)) (k : List Char) :
    dictKeys (dictDel m k) = (dictKeys m).erase k := by
  induction m with
  | nil => simp [dictDel, dictKeys]
  | cons p t ih =>
    obtain ⟨k', v'⟩ := p
    by_cases hk : k' = k
    · subst hk
      simp [dictDel, dictKeys, List.erase_cons_head]
    · simp only [dictDel, hk, if_false]
      rw [dictKeys_cons, dictKeys_cons, ih, List.erase_cons_tail]
      simp [hk]

theorem pyMinBySnd_spec {m : List (List Char × ℚ)} (h : m ≠ []) :
    ∃ p, pyMinBySnd m = some p ∧ p ∈ m ∧ ∀ q ∈ m, p.2 ≤ q.2 := by
  induction m with
  | nil => exact absurd rfl h
  | cons x t ih =>
    cases t with
    | nil =>
      refine ⟨x, by simp [pyMinBySnd], by simp, ?_⟩
      intro q hq
      simp at hq
      subst hq
      exact le_refl _
    | cons y t2 =>
      obtain ⟨p, hp, hpm, hple⟩ := ih (by simp)
      rw [pyMinBySnd, hp]
      by_cases hlt : p.2 < x.2
      · refine ⟨p, by simp [hlt], List.mem_cons_of_mem _ hpm, ?_⟩
        intro q hq
        rcases List.mem_cons.mp hq with h1 | h1
        · subst h1; exact le_of_lt hlt
        · exact hple q h1
      · refine ⟨x, by simp [hlt], List.mem_cons_self _ _, ?_⟩
        intro q hq
        rcases List.mem_cons.mp hq with h1 | h1
        · subst h1; exact le_refl _
        · exact le_trans (not_lt.mp hlt) (hple q h1)

theorem alookup_mem_keys {α β : Type} [DecidableEq α]
    {m : List (α × β)} {k : α} {v : β} (h : alookup m k = some v) :
    k ∈ dictKeys m :=
  List.mem_map_of_mem Prod.fst (alookup_mem h)

theorem length_dictKeys {α β : Type} (m : List (α × β)) :
    (dictKeys m).length = m.length := List.length_map _ _

theorem length_dictDel_of_mem {β : Type}
    {m : List (List Char × β)} {k : List Char} (h : k ∈ dictKeys m) :
    (dictDel m k).length = m.length - 1 := by
  have := congrArg List.length (dictKeys_dictDel m k)
  rw [length_dictKeys, List.length_erase_of_mem h, length_dictKeys] at this
  exact this

theorem length_dictSet_of_mem {α β : Type} [DecidableEq α]
    {m : List (α × β)} {k : α} (v : β) (h : k ∈ dictKeys m) :
    (dictSet m k v).length = m.length := by
  have := congrArg List.length (dictKeys_dictSet_mem v h)
  rwa [length_dictKeys, length_dictKeys] at this

theorem length_dictSet_of_notMem {α β : Type} [DecidableEq α]
    {m : List (α × β)} {k : α} (v : β) (h : k ∉ dictKeys m) :
    (dictSet m k v).length = m.length + 1 := by
  have := congrArg List.length (dictKeys_dictSet_notMem v h)
  rw [length_dictKeys, List.length_append, length_dictKeys] at this
  simpa using this


theorem lru_op_preserves {V : Type} {maxSize : Nat} (c : LRUCache V)
    (op : CacheOp V) (h1 : 1 ≤ maxSize)
    (hms : c.max_size = maxSize)
    (hnd : (dictKeys c.cache).Nodup)
    (hndt : (dictKeys c.access_times).Nodup)
    (hiff : ∀ k, k ∈ dictKeys c.cache ↔ k ∈ dictKeys c.access_times)
    (hlen : c.cache.length ≤ maxSize) :
    (applyCacheOp c op).max_size = maxSize ∧
    (dictKeys (applyCacheOp c op).cache).Nodup ∧
    (dictKeys (applyCacheOp c op).access_times).Nodup ∧
    (∀ k, k ∈ dictKeys (applyCacheOp c op).cache ↔
      k ∈ dictKeys (applyCacheOp c op).access_times) ∧
    (applyCacheOp c op).cache.length ≤ maxSize := by
  cases op with
  | opClear =>
    refine ⟨hms, ?_, ?_, ?_, ?_⟩ <;> simp [applyCacheOp, lru_clear, dictKeys]
  | opUpdateTtl now k t =>
    simp only [applyCacheOp, lru_update_ttl]
    cases halk : alookup c.cache k with
    | none => exact ⟨hms, hnd, hndt, hiff, hlen⟩
    | some ve =>
      obtain ⟨v, e⟩ := ve
      have hmem : k ∈ dictKeys c.cache := alookup_mem_keys halk
      refine ⟨hms, ?_, hndt, ?_, ?_⟩
      · rw [dictKeys_dictSet_mem _ hmem]; exact hnd
      · intro k'
        rw [dictKeys_dictSet_mem _ hmem]
        exact hiff k'
      · rw [length_dictSet_of_mem _ hmem]; exact hlen
  | opGet now k =>
    simp only [applyCacheOp, lru_get]
    cases halk : alookup c.cache k with
    | none => exact ⟨hms, hnd, hndt, hiff, hlen⟩
    | some ve =>
      obtain ⟨v, e⟩ := ve
      have hmemc : k ∈ dictKeys c.cache := alookup_mem_keys halk
      have hmemt : k ∈ dictKeys c.access_times := (hiff k).mp hmemc
      by_cases hexp : now > e
      · simp only [hexp, if_true]
        refine ⟨hms, ?_, ?_, ?_, ?_⟩
        · rw [dictKeys_dictDel]; exact hnd.erase k
        · rw [dictKeys_dictDel]; exact hndt.erase k
        · intro k'
          rw [dictKeys_dictDel, dictKeys_dictDel, hnd.mem_erase_iff,
            hndt.mem_erase_iff]
          exact and_congr_right (fun _ => hiff k')
        · calc (dictDel c.cache k).length
              = (dictKeys (dictDel c.cache k)).length := (length_dictKeys _).symm
            _ ≤ (dictKeys c.cache).length := by
                rw [dictKeys_dictDel]
                exact (List.erase_sublist _ _).length_le
            _ = c.cache.length := length_dictKeys _
            _ ≤ maxSize := hlen
      · simp only [hexp, if_false]
        refine ⟨hms, hnd, ?_, ?_, hlen⟩
        · rw [dictKeys_dictSet_mem _ hmemt]; exact hndt
        · intro k'
          rw [dictKeys_dictSet_mem _ hmemt]
          exact hiff k'
  | opPut now k v =>
    simp only [applyCacheOp, lru_put]
    by_cases hcond : c.max_size ≤ c.cache.length ∧ k ∉ dictKeys c.cache
    · rw [if_pos hcond]
      have hfull : c.cache.length = maxSize :=
        le_antisymm hlen (hms ▸ hcond.1)
      have htne : c.access_times ≠ [] := by
        intro he
        cases hcc : c.cache with
        | nil => rw [hcc] at hfull; simp at hfull; omega
        | cons p t0 =>
          have hp1 : p.1 ∈ dictKeys c.cache := by
            rw [hcc]
            exact List.mem_map_of_mem _ (List.mem_cons_self _ _)
          have := (hiff p.1).mp hp1
          rw [he] at this
          simp [dictKeys] at this
      obtain ⟨⟨ok, ot⟩, hmin, hminmem, hminle⟩ := pyMinBySnd_spec htne
      have hokt : ok ∈ dictKeys c.access_times :=
        List.mem_map_of_mem Prod.fst hminmem
      have hokc : ok ∈ dictKeys c.cache := (hiff ok).mpr hokt
      rw [evict_lru, hmin]
      have hkne : k ∉ (dictKeys c.cache).erase ok := by
        intro hk
        exact hcond.2 (List.mem_of_mem_erase hk)
      have hknet : k ∉ (dictKeys c.access_times).erase ok := by
        intro hk
        exact hcond.2 ((hiff k).mpr (List.mem_of_mem_erase hk))
      have hkc2 : k ∉ dictKeys (dictDel c.cache ok) := by
        rw [dictKeys_dictDel]; exact hkne
      have hkt2 : k ∉ dictKeys (dictDel c.access_times ok) := by
        rw [dictKeys_dictDel]; exact hknet
      refine ⟨hms, ?_, ?_, ?_, ?_⟩
      · rw [dictKeys_dictSet_notMem _ hkc2, dictKeys_dictDel,
          List.nodup_append]
        exact ⟨hnd.erase ok, List.nodup_singleton k,
          fun a ha hb => by simp at hb; exact hkne (hb ▸ ha)⟩
      · rw [dictKeys_dictSet_notMem _ hkt2, dictKeys_dictDel,
          List.nodup_append]
        exact ⟨hndt.erase ok, List.nodup_singleton k,
          fun a ha hb => by simp at hb; exact hknet (hb ▸ ha)⟩
      · intro k'
        rw [dictKeys_dictSet_notMem _ hkc2, dictKeys_dictSet_notMem _ hkt2,
          dictKeys_dictDel, dictKeys_dictDel]
        simp only [List.mem_append, hnd.mem_erase_iff, hndt.mem_erase_iff]
        exact or_congr (and_congr_right (fun _ => hiff k')) Iff.rfl
      · rw [length_dictSet_of_notMem _ hkc2, length_dictDel_of_mem hokc,
          hfull]
        omega
    · rw [if_neg hcond]
      by_cases hkc : k ∈ dictKeys c.cache
      · have hkt : k ∈ dictKeys c.access_times := (hiff k).mp hkc
        refine ⟨hms, ?_, ?_, ?_, ?_⟩
        · rw [dictKeys_dictSet_mem _ hkc]; exact hnd
        · rw [dictKeys_dictSet_mem _ hkt]; exact hndt
        · intro k'
          rw [dictKeys_dictSet_mem _ hkc, dictKeys_dictSet_mem _ hkt]
          exact hiff k'
        · rw [length_dictSet_of_mem _ hkc]; exact hlen
      · have hlt : c.cache.length < maxSize := by
          rcases not_and_or.mp hcond with hna | hna
          · rw [hms] at hna; omega
          · exact absurd (not_not.mp hna) hkc
        have hkt : k ∉ dictKeys c.access_times :=
          fun hk => hkc ((hiff k).mpr hk)
        refine ⟨hms, ?_, ?_, ?_, ?_⟩
        · rw [dictKeys_dictSet_notMem _ hkc, List.nodup_append]
          exact ⟨hnd, List.nodup_singleton k,
            fun a ha hb => by simp at hb; exact hkc (hb ▸ ha)⟩
        · rw [dictKeys_dictSet_notMem _ hkt, List.nodup_append]
          exact ⟨hndt, List.nodup_singleton k,
            fun a ha hb => by simp at hb; exact hkt (hb ▸ ha)⟩
        · intro k'
          rw [dictKeys_dictSet_notMem _ hkc, dictKeys_dictSet_notMem _ hkt]
          simp only [List.mem_append]
          exact or_congr (hiff k') Iff.rfl
        · rw [length_dictSet_of_notMem _ hkc]
          omega

theorem lru_put_on_full {V : Type} {maxSize : Nat} (c : LRUCache V)
    (now : ℚ) (k : List Char) (v : V)
    (h1 : 1 ≤ maxSize) (hms : c.max_size = maxSize)
    (hnd : (dictKeys c.cache).Nodup)
    (hiff : ∀ k', k' ∈ dictKeys c.cache ↔ k' ∈ dictKeys c.access_times)
    (hfull : c.cache.length = maxSize) (hk : k ∉ dictKeys c.cache) :
    ∃ ok ot, pyMinBySnd c.access_times = some (ok, ot) ∧
      (∀ p ∈ c.access_times, ot ≤ p.2) ∧
      ok ∉ dictKeys (lru_put c now k v).cache ∧
      (lru_put c now k v).cache.length = maxSize := by
  have hcond : c.max_size ≤ c.cache.length ∧ k ∉ dictKeys c.cache :=
    ⟨by omega, hk⟩
  have htne : c.access_times ≠ [] := by
    intro he
    cases hcc : c.cache with
    | nil => rw [hcc] at hfull; simp at hfull; omega
    | cons p t0 =>
      have hp1 : p.1 ∈ dictKeys c.cache := by
        rw [hcc]
        exact List.mem_map_of_mem _ (List.mem_cons_self _ _)
      have := (hiff p.1).mp hp1
      rw [he] at this
      simp [dictKeys] at this
  obtain ⟨⟨ok, ot⟩, hmin, hminmem, hminle⟩ := pyMinBySnd_spec htne
  have hokt : ok ∈ dictKeys c.access_times :=
    List.mem_map_of_mem Prod.fst hminmem
  have hokc : ok ∈ dictKeys c.cache := (hiff ok).mpr hokt
  have hkc2 : k ∉ dictKeys (dictDel c.cache ok) := by
    rw [dictKeys_dictDel]
    intro h
    exact hk (List.mem_of_mem_erase h)
  refine ⟨ok, ot, hmin, fun p hp => hminle p hp, ?_, ?_⟩
  · rw [lru_put, if_pos hcond, evict_lru, hmin]
    rw [dictKeys_dictSet_notMem _ hkc2, dictKeys_dictDel]
    intro h
    rcases List.mem_append.mp h with h | h
    · exact (hnd.mem_erase_iff.mp h).1 rfl
    · simp at h
      exact hk (h ▸ hokc)
  · rw [lru_put, if_pos hcond, evict_lru, hmin]
    rw [length_dictSet_of_notMem _ hkc2, length_dictDel_of_mem hokc, hfull]
    omega

/-- C10 (amended): for every `max_size ≥ 1`, after any sequence of `get`,
`put`, `update_ttl` and `clear` operations starting from an empty cache the
number of stored items is at most `max_size` and the key sets of the value
map and the access-time map are equal; moreover a `put` of a new key on a
full cache first evicts the entry with the minimal (oldest) access time.
(`max_size = 0` falsifies the unrestricted claim, see the counterexample.) -/
theorem lru_cache_invariant (V : Type) (maxSize : Nat) (ttl : ℚ)
    (h1 : 1 ≤ maxSize) (ops : List (CacheOp V)) :
    ((applyCacheOps ops (lru_empty V maxSize ttl)).cache.length ≤ maxSize) ∧
    (∀ k, k ∈ dictKeys (applyCacheOps ops (lru_empty V maxSize ttl)).cache ↔
      k ∈ dictKeys (applyCacheOps ops (lru_empty V maxSize ttl)).access_times) ∧
    (∀ (now : ℚ) (k : List Char) (v : V),
      (applyCacheOps ops (lru_empty V maxSize ttl)).cache.length = maxSize →
      k ∉ dictKeys (applyCacheOps ops (lru_empty V maxSize ttl)).cache →
      ∃ ok ot,
        pyMinBySnd
          (applyCacheOps ops (lru_empty V maxSize ttl)).access_times =
          some (ok, ot) ∧
        (∀ p ∈ (applyCacheOps ops (lru_empty V maxSize ttl)).access_times,
          ot ≤ p.2) ∧
        ok ∉ dictKeys
          (lru_put (applyCacheOps ops (lru_empty V maxSize ttl)) now k v).cache ∧
        (lru_put (applyCacheOps ops (lru_empty V maxSize ttl)) now k
          v).cache.length = maxSize) := by
  have main : ∀ (l : List (CacheOp V)) (c : LRUCache V),
      c.max_size = maxSize → (dictKeys c.cache).Nodup →
      (dictKeys c.access_times).Nodup →
      (∀ k, k ∈ dictKeys c.cache ↔ k ∈ dictKeys c.access_times) →
      c.cache.length ≤ maxSize →
      (applyCacheOps l c).max_size = maxSize ∧
      (dictKeys (applyCacheOps l c).cache).Nodup ∧
      (dictKeys (applyCacheOps l c).access_times).Nodup ∧
      (∀ k, k ∈ dictKeys (applyCacheOps l c).cache ↔
        k ∈ dictKeys (applyCacheOps l c).access_times) ∧
      (applyCacheOps l c).cache.length ≤ maxSize := by
    intro l
    induction l with
    | nil => intro c h2 h3 h4 h5 h6; exact ⟨h2, h3, h4, h5, h6⟩
    | cons op rest ih =>
      intro c h2 h3 h4 h5 h6
      have hstep := lru_op_preserves c op h1 h2 h3 h4 h5 h6
      exact ih (applyCacheOp c op) hstep.1 hstep.2.1 hstep.2.2.1
        hstep.2.2.2.1 hstep.2.2.2.2
  have hinv := main ops (lru_empty V maxSize ttl) rfl (by simp [lru_empty, dictKeys])
    (by simp [lru_empty, dictKeys]) (by simp [lru_empty, dictKeys])
    (by simp [lru_empty])
  refine ⟨hinv.2.2.2.2, hinv.2.2.2.1, ?_⟩
  intro now k v hfull hk
  exact lru_put_on_full _ now k v h1 hinv.1 hinv.2.1 hinv.2.2.2.1 hfull hk

/-- C10 witness: max_size 1, two puts — the second evicts the first. -/
theorem lru_cache_invariant_witness :
    1 ≤ 1 ∧
    (applyCacheOps [CacheOp.opPut 0 (cs "a") 1, CacheOp.opPut 1 (cs "b") 2]
      (lru_empty Nat 1 5)).cache.length ≤ 1 :=
  ⟨by decide,
    (lru_cache_invariant Nat 1 5 (by decide)
      [CacheOp.opPut 0 (cs "a") 1, CacheOp.opPut 1 (cs "b") 2]).1⟩

/-- C10 counterexample: with `max_size = 0` a single `put` stores one entry,
so the cache holds more than `max_size` items — the claim fails as stated
for that degenerate size (`_evict_lru` is a no-op on the empty access map,
and `put` inserts unconditionally afterwards). -/
theorem lru_zero_max_size_cex :
    (applyCacheOps [CacheOp.opPut 0 (cs "a") 1]
      (lru_empty Nat 0 5)).cache.length = 1 := rfl

/-! ## C9 — template-enhancement idempotence -/

theorem has_agentic_append (pre t : List Char)
    (h : has_agentic_instructions t = true) :
    has_agentic_instructions (pre ++ t) = true := by
  rw [has_agentic_instructions] at h ⊢
  obtain ⟨kw, hkw, hsub⟩ := List.any_eq_true.mp h
  exact List.any_eq_true.mpr ⟨kw, hkw, containsSub_append_left pre hsub⟩

set_option maxRecDepth 100000 in
theorem instr_has_keyword (cd cut cf auto is_sup : Bool)
    (hcap : cd = true ∨ cut = true ∨ cf = true) :
    has_agentic_instructions
      (get_agentic_system_instructions cd cut cf auto is_sup) = true := by
  cases cd <;> cases cut <;> cases cf <;> cases auto <;> cases is_sup <;>
    first
      | decide
      | exact absurd hcap (by decide)

theorem enhanced_system_message_has_keywords (cfg : AgentCfg) (is_sup : Bool)
    (hcap : cfg.can_delegate.getD true = true ∨
      cfg.can_use_tools.getD true = true ∨
      cfg.can_finalize.getD is_sup = true) :
    has_agentic_instructions
      ((enhanced_system_message cfg is_sup).getD []) = true := by
  rw [enhanced_system_message]
  by_cases hsm : has_agentic_instructions (cfg.system_message.getD []) = true
  · rw [if_pos hsm]
    exact hsm
  · rw [if_neg hsm]
    by_cases hemp : (cfg.system_message.getD []).isEmpty = true
    · rw [if_neg (not_not_intro hemp), Option.getD_some]
      exact instr_has_keyword _ _ _ _ _ hcap
    · rw [if_pos hemp, Option.getD_some]
      exact has_agentic_append _ _ (instr_has_keyword _ _ _ _ _ hcap)

theorem enhanced_prompt_template_some (cfg : AgentCfg) (is_sup : Bool)
    (pt : List Char) (hpt : cfg.prompt_template = some pt) :
    ∃ pt', enhanced_prompt_template cfg is_sup = some pt' := by
  rw [enhanced_prompt_template, hpt]
  by_cases h : containsSub ((some pt).getD []) (cs "{make_decision}") = true
  · rw [if_pos h]
    exact ⟨_, rfl⟩
  · rw [if_neg h]
    exact ⟨_, rfl⟩

theorem enhance_second_app (c1 : AgentCfg) (is_sup : Bool)
    (hskip : c1.agentic_system_message ≠ some false)
    (hpt : ∃ pt, c1.prompt_template = some pt)
    (hkw : has_agentic_instructions (c1.system_message.getD []) = true) :
    (enhance_agent_config c1 is_sup).map AgentCfg.system_message =
      some c1.system_message := by
  obtain ⟨pt, hptv⟩ := hpt
  rw [enhance_agent_config, if_neg hskip]
  obtain ⟨pt', hpt'⟩ := enhanced_prompt_template_some c1 is_sup pt hptv
  rw [hpt']
  show some _ = some c1.system_message
  congr 1
  show enhanced_system_message c1 is_sup = c1.system_message
  rw [enhanced_system_message]
  rw [if_pos hkw]

/-- C9 (amended): on the system message — the field the keyword scan
protects — enhancement is idempotent for every configuration in which at
least one of `can_delegate` / `can_use_tools` / `can_finalize` resolves to
true: the first application leaves a message containing a scanned keyword
(`[ACTION:` or `[TOOL:`), so a second application never appends the
instructions again.  (With all three capabilities off the injected text
contains none of the scanned keywords and is appended a second time — see
the counterexample.) -/
theorem enhance_system_message_idempotent (cfg : AgentCfg) (is_sup : Bool)
    (hcap : cfg.can_delegate.getD true = true ∨
      cfg.can_use_tools.getD true = true ∨
      cfg.can_finalize.getD is_sup = true) :
    ((enhance_agent_config cfg is_sup).bind
        (fun c => enhance_agent_config c is_sup)).map AgentCfg.system_message =
      (enhance_agent_config cfg is_sup).map AgentCfg.system_message := by
  by_cases hskip : cfg.agentic_system_message = some false
  · have h1 : enhance_agent_config cfg is_sup = some cfg := by
      rw [enhance_agent_config, if_pos hskip]
    rw [h1]
    show (enhance_agent_config cfg is_sup).map AgentCfg.system_message =
      (some cfg).map AgentCfg.system_message
    rw [h1]
  · rw [enhance_agent_config, if_neg hskip]
    cases hpt : enhanced_prompt_template cfg is_sup with
    | none => rfl
    | some pt =>
      exact enhance_second_app _ is_sup hskip ⟨pt, rfl⟩
        (enhanced_system_message_has_keywords cfg is_sup hcap)

/-- C9 witness: a default worker configuration (delegation and tool use
enabled by default) enhances idempotently on the system message. -/
theorem enhance_system_message_idempotent_witness :
    (c9CfgOn.can_delegate.getD true = true ∨
      c9CfgOn.can_use_tools.getD true = true ∨
      c9CfgOn.can_finalize.getD false = true) ∧
    ((enhance_agent_config c9CfgOn false).bind
        (fun c => enhance_agent_config c false)).map AgentCfg.system_message =
      (enhance_agent_config c9CfgOn false).map AgentCfg.system_message :=
  ⟨by decide, enhance_system_message_idempotent c9CfgOn false (by decide)⟩

set_option maxRecDepth 1000000 in
/-- C9 counterexample: the claim as stated — idempotence for *every*
configuration — fails for a worker config with `can_delegate = False` and
`can_use_tools = False` (and `can_finalize` defaulting to false): the
injected instruction text then contains none of the scanned keywords
(case-sensitivity defeats "decision format" against "## Decision Format"),
so the second application appends the instructions again. -/
theorem enhance_double_append_cex :
    ((enhance_agent_config c9Cfg false).bind
        (fun c => enhance_agent_config c false)) ≠
      enhance_agent_config c9Cfg false := by decide

/-! ## C7 — iterative-hybrid convergence check -/

theorem toNat_ofNat_of_lt {n : Nat} (h : n < 55296) :
    (Char.ofNat n).toNat = n := by
  have hv : n.isValidChar := Or.inl h
  unfold Char.ofNat
  rw [dif_pos hv]
  rfl

theorem pyIsSpace_false_of_toNat (X : Char) (hX : 33 ≤ X.toNat) :
    pyIsSpace X = false := by
  have h1 : X ≠ ' ' := fun he => by subst he; exact absurd hX (by decide)
  have h2 : X ≠ '\t' := fun he => by subst he; exact absurd hX (by decide)
  have h3 : X ≠ '\n' := fun he => by subst he; exact absurd hX (by decide)
  have h4 : X ≠ '\r' := fun he => by subst he; exact absurd hX (by decide)
  have h5 : X ≠ '\x0b' := fun he => by subst he; exact absurd hX (by decide)
  have h6 : X ≠ '\x0c' := fun he => by subst he; exact absurd hX (by decide)
  simp [pyIsSpace, h1, h2, h3, h4, h5, h6]

theorem pyIsSpace_pyLowerChar (c : Char) :
    pyIsSpace (pyLowerChar c) = pyIsSpace c := by
  rw [pyLowerChar]
  split
  · rename_i h
    have h32 : (Char.ofNat (c.toNat + 32)).toNat = c.toNat + 32 :=
      toNat_ofNat_of_lt (by omega)
    rw [pyIsSpace_false_of_toNat _ (by rw [h32]; omega),
      pyIsSpace_false_of_toNat _ (by omega : 33 ≤ c.toNat)]
  · rfl

theorem pySplitGo_map (f : Char → Char)
    (hf : ∀ c, pyIsSpace (f c) = pyIsSpace c) :
    ∀ (n : Nat) (s : List Char),
      pySplitGo n (s.map f) = (pySplitGo n s).map (List.map f) := by
  intro n
  induction n with
  | zero => intro s; simp [pySplitGo]
  | succ n ih =>
    intro s
    cases s with
    | nil => simp [pySplitGo]
    | cons c t =>
      have hcomp : ((fun x => !(pyIsSpace x)) ∘ f) =
          (fun x => !(pyIsSpace x)) := by
        funext x
        simp [Function.comp, hf]
      simp only [List.map_cons, pySplitGo]
      simp only [hf]
      by_cases hc : pyIsSpace c = true
      · rw [if_pos hc, if_pos hc, ih]
      · rw [if_neg hc, if_neg hc, List.map_cons, ← List.map_cons f c t,
          List.takeWhile_map, List.dropWhile_map, hcomp, ih]

theorem pySplit_pyLower_length (t : List Char) :
    (pySplit (pyLower t)).length = (pySplit t).length := by
  rw [pySplit, pySplit, pyLower, List.length_map,
    pySplitGo_map pyLowerChar pyIsSpace_pyLowerChar, List.length_map]

theorem calculate_difference_self (t : List Char) (h1 : t ≠ [])
    (h2 : (pySplit (pyLower t)).Nodup) (h3 : pySplit t ≠ []) :
    calculate_difference t t = 0 := by
  have hE : t.isEmpty = false := by
    cases t with
    | nil => exact absurd rfl h1
    | cons a l => rfl
  have hfil : ((pySplit (pyLower t)).dedup.filter
        (fun w => w ∈ pySplit (pyLower t))).length = (pySplit t).length := by
    rw [List.filter_eq_self.2 (fun a ha => decide_eq_true (List.mem_dedup.1 ha)),
      h2.dedup, pySplit_pyLower_length]
  have hL : (((pySplit t).length : ℚ)) ≠ 0 := by
    rw [ne_eq, Nat.cast_eq_zero, List.length_eq_zero]
    exact h3
  rw [calculate_difference, if_neg (by rw [hE]; simp)]
  simp only [hfil]
  rw [sub_self, abs_zero, zero_div, mul_zero, zero_add, max_self,
    div_self hL, sub_self, mul_zero]

theorem team_entry_ok (p : List Char × TeamOut) :
    ((match p.2.history.getLast? with
      | none => true
      | some prevE =>
        if calculate_difference (p.2.final_output.getD [])
            (prevE.getD []) > 3 / 10 then false else true) = true)
    ↔ ∀ prevE, p.2.history.getLast? = some prevE →
        calculate_difference (p.2.final_output.getD [])
          (prevE.getD []) ≤ 3 / 10 := by
  cases hl : p.2.history.getLast? with
  | none => simp
  | some prevE =>
    show ((if calculate_difference (p.2.final_output.getD [])
        (prevE.getD []) > 3 / 10 then false else true) = true) ↔ _
    by_cases hd : calculate_difference (p.2.final_output.getD [])
        (prevE.getD []) > 3 / 10
    · rw [if_pos hd]
      constructor
      · intro h
        exact absurd h (by decide)
      · intro h
        exact absurd (h prevE rfl) (not_le.2 hd)
    · rw [if_neg hd]
      constructor
      · intro _ q hq
        cases hq
        exact not_lt.1 hd
      · intro _
        rfl

theorem peer_entry_ok (p : List Char × PeerOut) :
    ((match p.2 with
      | .nondict => true
      | .pdict out hist =>
        match hist.getLast? with
        | none => true
        | some prevE =>
          if calculate_difference (out.getD []) (prevE.getD []) > 3 / 10
          then false else true) = true)
    ↔ ∀ out hist prevE, p.2 = .pdict out hist →
        hist.getLast? = some prevE →
        calculate_difference (out.getD []) (prevE.getD []) ≤ 3 / 10 := by
  cases hpd : p.2 with
  | nondict => simp
  | pdict out hist =>
    show ((match hist.getLast? with
      | none => true
      | some prevE =>
        if calculate_difference (out.getD []) (prevE.getD []) > 3 / 10
        then false else true) = true) ↔ _
    cases hl : hist.getLast? with
    | none =>
      simp only [true_iff]
      intro o hh q ho hq
      cases ho
      rw [hl] at hq
      cases hq
    | some prevE =>
      show ((if calculate_difference (out.getD []) (prevE.getD []) > 3 / 10
          then false else true) = true) ↔ _
      by_cases hd : calculate_difference (out.getD []) (prevE.getD []) > 3 / 10
      · rw [if_pos hd]
        constructor
        · intro h
          exact absurd h (by decide)
        · intro h
          exact absurd (h out hist prevE rfl hl) (not_le.2 hd)
      · rw [if_neg hd]
        constructor
        · intro _ o hh q ho hq
          cases ho
          rw [hl] at hq
          cases hq
          exact not_lt.1 hd
        · intro _
          rfl

theorem check_convergence_iff (tos : List (List Char × TeamOut))
    (pos : List (List Char × PeerOut)) (it : Nat) (hit : it ≠ 0) :
    (check_convergence tos pos it = true ↔
      ∀ q ∈ tracked_scores tos pos, q ≤ 3 / 10) := by
  rw [check_convergence, if_neg hit, Bool.and_eq_true, List.all_eq_true,
    List.all_eq_true]
  constructor
  · rintro ⟨h1, h2⟩ q hq
    rcases List.mem_append.1 hq with hq | hq
    · rcases List.mem_filterMap.1 hq with ⟨p, hp, hpq⟩
      have hTeam := (team_entry_ok p).1 (h1 p hp)
      cases hl : p.2.history.getLast? with
      | none => rw [hl] at hpq; cases hpq
      | some prevE =>
        rw [hl] at hpq
        cases hpq
        exact hTeam prevE hl
    · rcases List.mem_filterMap.1 hq with ⟨p, hp, hpq⟩
      have hPeer := (peer_entry_ok p).1 (h2 p hp)
      cases hpd : p.2 with
      | nondict => rw [hpd] at hpq; cases hpq
      | pdict out hist =>
        rw [hpd] at hpq
        have hpq' : (match hist.getLast? with
            | none => none
            | some prevE =>
              some (calculate_difference (out.getD [])
                (prevE.getD []))) = some q := hpq
        cases hl : hist.getLast? with
        | none => rw [hl] at hpq'; cases hpq'
        | some prevE =>
          rw [hl] at hpq'
          cases hpq'
          exact hPeer out hist prevE hpd hl
  · intro h
    constructor
    · intro p hp
      apply (team_entry_ok p).2
      intro prevE hl
      apply h
      apply List.mem_append.2
      left
      refine List.mem_filterMap.2 ⟨p, hp, ?_⟩
      rw [hl]
    · intro p hp
      apply (peer_entry_ok p).2
      intro out hist prevE hpd hl
      apply h
      apply List.mem_append.2
      right
      refine List.mem_filterMap.2 ⟨p, hp, ?_⟩
      rw [hpd]
      show (match hist.getLast? with
        | none => none
        | some prevE =>
          some (calculate_difference (out.getD []) (prevE.getD []))) =
        some (calculate_difference (out.getD []) (prevE.getD []))
      rw [hl]

/-- C7 counterexample: the claim says two identical consecutive rounds
always score 0 and so always converge; but `_calculate_difference` counts
*distinct* shared lowered tokens against the *total* token count, so the
identical texts `"go go go"` score `0.7 * (1 - 1/3) = 7/15 > 0.3` and
convergence is *not* reported at iteration 1. -/
theorem convergence_identical_rounds_cex :
    check_convergence [(cs "t1",
      ⟨some (cs "go go go"), [some (cs "go go go")]⟩)] [] 1 = false := by
  have hv : calculate_difference (cs "go go go") (cs "go go go")
      = 3 / 10 * (|(((8 : Nat) : ℚ) - ((8 : Nat) : ℚ))| / ((8 : Nat) : ℚ))
        + 7 / 10 * (1 - ((1 : Nat) : ℚ) / ((3 : Nat) : ℚ)) := rfl
  have hgt : calculate_difference (cs "go go go") (cs "go go go") > 3 / 10 := by
    rw [hv]
    norm_num
  unfold check_convergence
  rw [if_neg one_ne_zero, List.all_nil, Bool.and_true, List.all_cons,
    List.all_nil, Bool.and_true]
  show (if calculate_difference (cs "go go go") (cs "go go go") > 3 / 10
      then false else true) = false
  rw [if_pos hgt]

/-- **C7** (amended).  With a nonzero iteration counter,
`_check_convergence` reports convergence exactly when every tracked
difference score is at most `0.3` (the source continues on `> 0.3`, so a
boundary score of exactly `0.3` counts as converged — not "below 0.3");
`_calculate_difference` of a text against itself is `0` whenever the text
is nonempty, splits into at least one token, and its lowered tokens are
pairwise distinct; consequently a team whose two consecutive rounds
produced such a text is reported converged at iteration 1.  Without the
distinct-token proviso the "identical rounds score 0" part of the claim is
false: see `convergence_identical_rounds_cex`. -/
theorem check_convergence_amended :
    (∀ (tos : List (List Char × TeamOut)) (pos : List (List Char × PeerOut))
        (it : Nat), it ≠ 0 →
        (check_convergence tos pos it = true ↔
          ∀ q ∈ tracked_scores tos pos, q ≤ 3 / 10))
    ∧ (∀ t : List Char, t ≠ [] → (pySplit (pyLower t)).Nodup →
        pySplit t ≠ [] → calculate_difference t t = 0)
    ∧ (∀ (nm t : List Char), t ≠ [] → (pySplit (pyLower t)).Nodup →
        pySplit t ≠ [] →
        check_convergence [(nm, ⟨some t, [some t]⟩)] [] 1 = true) := by
  refine ⟨check_convergence_iff, calculate_difference_self, ?_⟩
  intro nm t h1 h2 h3
  have h0 := calculate_difference_self t h1 h2 h3
  rw [check_convergence_iff _ _ 1 one_ne_zero]
  intro q hq
  have hts : tracked_scores [(nm, ⟨some t, [some t]⟩)] [] =
      [calculate_difference t t] := rfl
  rw [hts] at hq
  rcases List.mem_singleton.1 hq with rfl
  rw [h0]
  norm_num

theorem check_convergence_amended_witness :
    cs "go west" ≠ ([] : List Char)
    ∧ (pySplit (pyLower (cs "go west"))).Nodup
    ∧ pySplit (cs "go west") ≠ []
    ∧ check_convergence [(cs "t1",
        ⟨some (cs "go west"), [some (cs "go west")]⟩)] [] 1 = true :=
  ⟨by decide, by decide, by decide,
    check_convergence_amended.2.2 (cs "t1") (cs "go west")
      (by decide) (by decide) (by decide)⟩

/-! ## C3 — supervisor/worker scenario A -/

/-- C3 counterexample: after the claimed run the execution graph is *not*
`{"s": ["w1"]}` — `_process_agent_response` also records the worker's
delegate-back edge (`w1 → s`), because the parser's worker-default turns
`w1`'s plain prose reply into a delegation back to the supervisor and the
graph update runs for every agent response, not only the supervisor's. -/
theorem scenario_a_claimed_graph_cex :
    scA5.map WfState.execution_graph ≠ some [(cs "s", [cs "w1"])] := by decide

/-- **C3** (amended).  In the supervisor/worker run with workers `w1`, `w2`
(supervisor `s`): after the supervisor's `[ACTION: delegate to w1]` the
router dispatches exactly `w1`; after `w1`'s plain reply control returns to
the supervisor; after the supervisor's `[ACTION: final]` the router routes
to the final node; and the resulting execution graph is
`{"s": ["w1"], "w1": ["s"]}` — it additionally contains the worker's
recorded delegation back to the supervisor, not the claimed
`{"s": ["w1"]}`. -/
theorem scenario_a_execution_graph :
    scA2d.map Prod.fst = some (cs "w1")
    ∧ scA4d.map Prod.fst = some (cs "s")
    ∧ scA6d.map Prod.fst = some (cs "final")
    ∧ scA5.map WfState.execution_graph =
        some [(cs "s", [cs "w1"]), (cs "w1", [cs "s"])] :=
  ⟨rfl, rfl, rfl, rfl⟩

/-! ## C2 — explicit-tag precedence in the parser -/

theorem wordChar_not_space (c : Char) (h : isWordChar c = true) :
    pyIsSpace c = false := by
  rw [isWordChar] at h
  simp only [Bool.or_eq_true, Bool.and_eq_true, decide_eq_true_eq] at h
  rcases h with ((⟨ha, hb⟩ | ⟨ha, hb⟩) | ⟨ha, hb⟩) | h
  · exact pyIsSpace_false_of_toNat c (by omega)
  · exact pyIsSpace_false_of_toNat c (by omega)
  · exact pyIsSpace_false_of_toNat c (by omega)
  · subst h; decide

theorem wordChar_ne_rb (c : Char) (h : isWordChar c = true) : c ≠ ']' := by
  intro he
  subst he
  exact absurd h (by decide)

theorem ciPrefix_append_self (p s : List Char) : ciPrefix p (p ++ s) = some s := by
  induction p with
  | nil => rfl
  | cons c t ih => simp [ciPrefix, ih]

theorem splitAtRB_append (seg rest : List Char) (h : ']' ∉ seg) :
    splitAtRB (seg ++ (']' :: rest)) = some (seg, rest) := by
  induction seg with
  | nil => simp [splitAtRB]
  | cons c t ih =>
    have hc : c ≠ ']' := fun he => h (he ▸ List.mem_cons_self c t)
    simp [splitAtRB, hc, ih (fun hm => h (List.mem_cons_of_mem c hm))]

theorem tryTagAt_hit (tag seg rest : List Char) (hseg : ']' ∉ seg)
    (hne : seg ≠ []) :
    tryTagAt tag ('[' :: (tag ++ (':' :: (seg ++ (']' :: rest)))))
      = some (seg, rest) := by
  have hE : seg.isEmpty = false := by
    cases seg with
    | nil => exact absurd rfl hne
    | cons a l => rfl
  simp only [tryTagAt, if_pos rfl, ciPrefix_append_self,
    splitAtRB_append _ _ hseg, hE, Bool.false_eq_true, if_false, if_true]

theorem tryTagAt_no_lb (tag : List Char) (c : Char) (t : List Char)
    (hc : c ≠ '[') : tryTagAt tag (c :: t) = none := by
  simp [tryTagAt, hc]

theorem findTag_skip (tag pre s : List Char) (hpre : ∀ c ∈ pre, c ≠ '[') :
    findTag tag (pre ++ s) = findTag tag s := by
  induction pre with
  | nil => rfl
  | cons c t ih =>
    rw [List.cons_append]
    simp only [findTag,
      tryTagAt_no_lb tag c (t ++ s) (hpre c (List.mem_cons_self c t))]
    exact ih fun d hd => hpre d (List.mem_cons_of_mem c hd)

theorem takeWhile_all {p : Char → Bool} :
    ∀ l : List Char, (∀ c ∈ l, p c = true) → l.takeWhile p = l := by
  intro l hall
  induction l with
  | nil => rfl
  | cons c t ih =>
    rw [List.takeWhile_cons, if_pos (hall c (List.mem_cons_self c t)),
      ih fun d hd => hall d (List.mem_cons_of_mem c hd)]

theorem dropWhile_append_false {p : Char → Bool} (l m : List Char)
    (hne : l ≠ []) (hall : ∀ c ∈ l, p c = false) :
    (l ++ m).dropWhile p = l ++ m := by
  cases l with
  | nil => exact absurd rfl hne
  | cons c t =>
    rw [List.cons_append, List.dropWhile_cons,
      if_neg (by simp [hall c (List.mem_cons_self c t)])]

theorem strip_lower_body (W : List Char) (hW0 : W ≠ [])
    (hWw : ∀ c ∈ W, isWordChar c = true) (hWl : pyLower W = W) :
    pyLower (pyStrip (cs " delegate to " ++ W)) = cs "delegate to " ++ W := by
  have h1 : cs " delegate to " ++ W = ' ' :: (cs "delegate to " ++ W) := rfl
  have h2 : cs "delegate to " ++ W = 'd' :: (cs "elegate to " ++ W) := rfl
  have hfront : (cs " delegate to " ++ W).dropWhile pyIsSpace
      = cs "delegate to " ++ W := by
    rw [h1, List.dropWhile_cons, if_pos (by decide), h2, List.dropWhile_cons,
      if_neg (by decide), ← h2]
  have hrev : ((cs "delegate to " ++ W).reverse).dropWhile pyIsSpace
      = (cs "delegate to " ++ W).reverse := by
    rw [List.reverse_append]
    apply dropWhile_append_false
    · simp [hW0]
    · intro c hc
      exact wordChar_not_space c (hWw c (List.mem_reverse.1 hc))
  rw [pyStrip, hfront, hrev, List.reverse_reverse, pyLower, List.map_append]
  rw [show List.map pyLowerChar (cs "delegate to ") = cs "delegate to "
    from by decide]
  exact congrArg _ hWl

theorem tryDelegateAt_hit (W : List Char) (hW0 : W ≠ [])
    (hWw : ∀ c ∈ W, isWordChar c = true) :
    tryDelegateAt (cs "delegate to " ++ W) = some W := by
  obtain ⟨b, W', rfl⟩ := List.exists_cons_of_ne_nil hW0
  have hb : isWordChar b = true := hWw b (List.mem_cons_self b W')
  have hbs : pyIsSpace b = false := wordChar_not_space b hb
  have h1 : cs "delegate to " ++ (b :: W')
      = cs "delegate" ++ (cs " to " ++ (b :: W')) := rfl
  have h2 : cs " to " ++ (b :: W') = ' ' :: (cs "to " ++ (b :: W')) := rfl
  have h3 : cs "to " ++ (b :: W') = 't' :: ('o' :: (' ' :: (b :: W'))) := rfl
  have h4 : 't' :: ('o' :: (' ' :: (b :: W'))) = cs "to" ++ (' ' :: (b :: W')) := rfl
  have hsp : pyIsSpace ' ' = true := by decide
  have htw : List.takeWhile isWordChar W' = W' :=
    takeWhile_all _ fun d hd => hWw d (List.mem_cons_of_mem b hd)
  have e1 : List.takeWhile pyIsSpace (cs " to " ++ (b :: W')) = [' '] := by
    rw [h2, List.takeWhile_cons, if_pos hsp, h3, List.takeWhile_cons,
      if_neg (by decide)]
  have e2 : List.dropWhile pyIsSpace (cs " to " ++ (b :: W'))
      = cs "to " ++ (b :: W') := by
    rw [h2, List.dropWhile_cons, if_pos hsp, h3, List.dropWhile_cons,
      if_neg (by decide), ← h3]
  have e3 : ciPrefix (cs "to") (cs "to " ++ (b :: W'))
      = some (' ' :: (b :: W')) := by
    rw [show cs "to " ++ (b :: W') = cs "to" ++ (' ' :: (b :: W')) from rfl,
      ciPrefix_append_self]
  have e4 : List.takeWhile pyIsSpace (' ' :: (b :: W')) = [' '] := by
    rw [List.takeWhile_cons, if_pos hsp, List.takeWhile_cons,
      if_neg (by simp [hbs])]
  have e5 : List.dropWhile pyIsSpace (' ' :: (b :: W')) = b :: W' := by
    rw [List.dropWhile_cons, if_pos hsp, List.dropWhile_cons,
      if_neg (by simp [hbs])]
  have e6 : List.takeWhile isWordChar (b :: W') = b :: W' := by
    rw [List.takeWhile_cons, if_pos hb, htw]
  rw [h1, tryDelegateAt, ciPrefix_append_self]
  simp only [e1, e2, e3, e4, e5, e6, List.isEmpty_cons, List.isEmpty_nil]
  simp

theorem findDelegate_hit (W : List Char) (hW0 : W ≠ [])
    (hWw : ∀ c ∈ W, isWordChar c = true) :
    findDelegate (cs "delegate to " ++ W) = some W := by
  rw [show cs "delegate to " ++ W = 'd' :: (cs "elegate to " ++ W) from rfl]
  simp only [findDelegate]
  rw [show ('d' : Char) :: (cs "elegate to " ++ W) = cs "delegate to " ++ W
    from rfl, tryDelegateAt_hit W hW0 hWw]

theorem stage1_action_delegate (pre post W an : List Char) (ctx : ParseCtx)
    (hpre : ∀ c ∈ pre, c ≠ '[') (hW0 : W ≠ [])
    (hWw : ∀ c ∈ W, isWordChar c = true) (hWl : pyLower W = W)
    (hWa : W ∈ ctx.available_agents) :
    (stage1_action
        (pre ++ ('[' :: (cs "ACTION" ++ (':' ::
          ((cs " delegate to " ++ W) ++ (']' :: post)))))) an ctx).map
      (fun d => (d.action_type, d.target)) = some (cs "delegate", some W) := by
  have hseg : ']' ∉ cs " delegate to " ++ W := by
    intro hm
    rcases List.mem_append.1 hm with hm | hm
    · exact absurd hm (by decide)
    · exact wordChar_ne_rb ']' (hWw ']' hm) rfl
  have hne : cs " delegate to " ++ W ≠ [] := by
    rw [show cs " delegate to " ++ W = ' ' :: (cs "delegate to " ++ W) from rfl]
    exact List.cons_ne_nil _ _
  have hfind : findTag (cs "ACTION")
      (pre ++ ('[' :: (cs "ACTION" ++ (':' ::
        ((cs " delegate to " ++ W) ++ (']' :: post))))))
      = some (cs " delegate to " ++ W, post) := by
    rw [findTag_skip _ _ _ hpre]
    simp only [findTag, tryTagAt_hit (cs "ACTION") _ post hseg hne]
  simp only [stage1_action, hfind, strip_lower_body W hW0 hWw hWl,
    findDelegate_hit W hW0 hWw]
  simp [hWa]

/-- C2 counterexample: the claim as stated fails — `re.search` takes the
*leftmost* `[ACTION: ...]` tag, and a non-delegating leftmost tag whose text
contains "done" wins over a later explicit `[ACTION: delegate to w1]` tag,
so this content (which contains both that tag for the available agent `w1`
and the phrase "final answer") parses as `final`, not `delegate`. -/
theorem parser_precedence_cex :
    (parse_agent_decision
        (cs "[ACTION: done] [ACTION: delegate to w1] final answer")
        (cs "s") (cs "supervisor") c2Ctx).action_type = cs "final" := by decide

/-- **C2** (amended).  The explicit-tag rule does outrank the
natural-language finality phrases *provided the delegate tag is the leftmost
tag candidate*: whenever the content is `pre ++ "[ACTION: delegate to W]" ++
post` with no `[` occurring in `pre`, `W` a nonempty lowercase word
(`[a-zA-Z0-9_]+` characters, fixed by `.lower()`) listed in the context's
available agents, `parse_agent_decision` returns a delegate decision
targeting `W` — whatever `pre` and `post` contain, including the phrase
"final answer".  With an earlier non-delegating `[ACTION: ...]` tag the
result can instead be `final`: see `parser_precedence_cex`. -/
theorem parse_delegate_tag_precedence (pre post W an ar : List Char)
    (ctx : ParseCtx) (hpre : ∀ c ∈ pre, c ≠ '[') (hW0 : W ≠ [])
    (hWw : ∀ c ∈ W, isWordChar c = true) (hWl : pyLower W = W)
    (hWa : W ∈ ctx.available_agents) :
    (parse_agent_decision
        (pre ++ (cs "[ACTION: delegate to " ++ (W ++ (']' :: post)))) an ar
        ctx).action_type = cs "delegate"
    ∧ (parse_agent_decision
        (pre ++ (cs "[ACTION: delegate to " ++ (W ++ (']' :: post)))) an ar
        ctx).target = some W := by
  have hshape : pre ++ (cs "[ACTION: delegate to " ++ (W ++ (']' :: post)))
      = pre ++ ('[' :: (cs "ACTION" ++ (':' ::
          ((cs " delegate to " ++ W) ++ (']' :: post))))) := by
    rw [List.append_assoc (cs " delegate to ") W (']' :: post)]
    rfl
  rw [hshape]
  have hmap := stage1_action_delegate pre post W an ctx hpre hW0 hWw hWl hWa
  obtain ⟨d, hd, hproj⟩ : ∃ d, stage1_action
      (pre ++ ('[' :: (cs "ACTION" ++ (':' ::
        ((cs " delegate to " ++ W) ++ (']' :: post)))))) an ctx = some d
      ∧ d.action_type = cs "delegate" ∧ d.target = some W := by
    cases hs : stage1_action
        (pre ++ ('[' :: (cs "ACTION" ++ (':' ::
          ((cs " delegate to " ++ W) ++ (']' :: post)))))) an ctx with
    | none => rw [hs] at hmap; cases hmap
    | some d =>
      rw [hs, Option.map_some'] at hmap
      refine ⟨d, rfl, ?_, ?_⟩
      · exact congrArg Prod.fst (Option.some.inj hmap)
      · exact congrArg Prod.snd (Option.some.inj hmap)
  rw [parse_agent_decision, hd]
  exact hproj

theorem parse_delegate_tag_precedence_witness :
    (∀ c ∈ cs "The plan: ", c ≠ '[')
    ∧ (cs "w1" ≠ ([] : List Char))
    ∧ (∀ c ∈ cs "w1", isWordChar c = true)
    ∧ pyLower (cs "w1") = cs "w1"
    ∧ cs "w1" ∈ c2Ctx.available_agents
    ∧ (parse_agent_decision
        (cs "The plan: " ++ (cs "[ACTION: delegate to " ++
          (cs "w1" ++ (']' :: cs " final answer"))))
        (cs "s") (cs "supervisor") c2Ctx).action_type = cs "delegate"
    ∧ (parse_agent_decision
        (cs "The plan: " ++ (cs "[ACTION: delegate to " ++
          (cs "w1" ++ (']' :: cs " final answer"))))
        (cs "s") (cs "supervisor") c2Ctx).target = some (cs "w1") :=
  ⟨by decide, by decide, by decide, by decide, by decide,
    (parse_delegate_tag_precedence (cs "The plan: ") (cs " final answer")
      (cs "w1") (cs "s") (cs "supervisor") c2Ctx (by decide) (by decide)
      (by decide) (by decide) (by decide)).1,
    (parse_delegate_tag_precedence (cs "The plan: ") (cs " final answer")
      (cs "w1") (cs "s") (cs "supervisor") c2Ctx (by decide) (by decide)
      (by decide) (by decide) (by decide)).2⟩

/-! ## C6 — has_cycle correctness -/

theorem le_foldr_max : ∀ (l : List Nat) (a : Nat), a ∈ l → a ≤ l.foldr max 0 := by
  intro l
  induction l with
  | nil => intro a ha; cases ha
  | cons b t ih =>
    intro a ha
    rw [List.foldr_cons]
    rcases List.mem_cons.1 ha with rfl | ha
    · exact le_max_left _ _
    · exact le_trans (ih a ha) (le_max_right _ _)

theorem adj_length_le_maxAdj (g : DGraph) (n : List Char) :
    (adj g n).length ≤ maxAdj g := by
  rw [adj]
  cases h : alookup g n with
  | none => simp
  | some l =>
    exact le_foldr_max _ _
      (List.mem_map_of_mem (fun p => p.2.length) (alookup_mem h))

theorem adj_mem_mentioned (g : DGraph) (n m : List Char)
    (h : m ∈ adj g n) : m ∈ mentioned g := by
  rw [adj] at h
  cases halk : alookup g n with
  | none => rw [halk] at h; cases h
  | some l =>
    rw [halk] at h
    exact List.mem_append_right _
      (List.mem_flatten.2
        ⟨l, List.mem_map_of_mem Prod.snd (alookup_mem halk), h⟩)

theorem edge_mem_gkeys (g : DGraph) (a b : List Char)
    (h : edgeRel g a b) : a ∈ gkeys g := by
  rw [edgeRel, adj] at h
  cases halk : alookup g a with
  | none => rw [halk] at h; cases h
  | some l => exact alookup_mem_keys halk

theorem gkeys_mem_mentioned (g : DGraph) (a : List Char)
    (h : a ∈ gkeys g) : a ∈ mentioned g := List.mem_append_left _ h

theorem black_persist {s s' : DfsSt} (hst : s'.stack = s.stack)
    (hv : s.visited ⊆ s'.visited) {x : List Char} (hx : Black s x) :
    Black s' x := ⟨hv hx.1, hst ▸ hx.2⟩

theorem black_push {s : DfsSt} {n : List Char} (hn : n ∉ s.visited)
    (x : List Char) :
    Black ⟨n :: s.visited, n :: s.stack⟩ x ↔ Black s x := by
  constructor
  · rintro ⟨hv, hs⟩
    rcases List.mem_cons.1 hv with rfl | hv
    · exact absurd (List.mem_cons_self x s.stack) hs
    · exact ⟨hv, fun hx => hs (List.mem_cons_of_mem n hx)⟩
  · rintro ⟨hv, hs⟩
    refine ⟨List.mem_cons_of_mem n hv, fun hx => ?_⟩
    rcases List.mem_cons.1 hx with rfl | hx
    · exact hn hv
    · exact hs hx

theorem blackReach {g : DGraph} {s : DfsSt} (hB : BlackInv g s)
    {x y : List Char} (hx : Black s x)
    (h : Relation.ReflTransGen (edgeRel g) x y) : Black s y := by
  induction h with
  | refl => exact hx
  | tail hab hbc ih => exact hB _ ih _ hbc

theorem chainReach {g : DGraph} :
    ∀ (rest : List (List Char)) (cur m : List Char),
      List.Chain' (fun a b => edgeRel g b a) (cur :: rest) →
      m ∈ cur :: rest → Relation.ReflTransGen (edgeRel g) m cur := by
  intro rest
  induction rest with
  | nil =>
    intro cur m _ hm
    rcases List.mem_cons.1 hm with rfl | hm
    · exact Relation.ReflTransGen.refl
    · cases hm
  | cons b t ih =>
    intro cur m hch hm
    rcases List.chain'_cons'.1 hch with ⟨hhd, hch'⟩
    rcases List.mem_cons.1 hm with rfl | hm
    · exact Relation.ReflTransGen.refl
    · exact (ih b m hch' hm).tail (hhd b rfl)

theorem uCount_mono {g : DGraph} {s s' : DfsSt}
    (h : s.visited ⊆ s'.visited) : uCount g s' ≤ uCount g s := by
  apply List.Sublist.length_le
  apply List.monotone_filter_right
  intro a ha
  simp only [decide_eq_true_eq] at ha ⊢
  exact fun hv => ha (h hv)

theorem uCount_visit {g : DGraph} {s : DfsSt} {n : List Char}
    (hn : n ∉ s.visited) (hm : n ∈ mentioned g) (st : List (List Char)) :
    uCount g ⟨n :: s.visited, st⟩ < uCount g s := by
  have hsub : List.Sublist
      ((mentioned g).dedup.filter
        (fun x => x ∉ (⟨n :: s.visited, st⟩ : DfsSt).visited))
      ((mentioned g).dedup.filter (fun x => x ∉ s.visited)) := by
    apply List.monotone_filter_right
    intro a ha
    simp only [decide_eq_true_eq] at ha ⊢
    exact fun hv => ha (List.mem_cons_of_mem n hv)
  refine Nat.lt_of_le_of_ne hsub.length_le (fun he => ?_)
  have heq := hsub.eq_of_length he
  have hnin : n ∈ (mentioned g).dedup.filter (fun x => x ∉ s.visited) := by
    rw [List.mem_filter]
    exact ⟨List.mem_dedup.2 hm, by simpa using hn⟩
  rw [← heq, List.mem_filter] at hnin
  simp at hnin

theorem uCount_le_mentioned (g : DGraph) (s : DfsSt) :
    uCount g s ≤ (mentioned g).length :=
  le_trans (List.length_filter_le _ _) (List.dedup_sublist _).length_le

theorem some_pair_inj {b b' : Bool} {s s' : DfsSt}
    (h : (some (b, s) : Option (Bool × DfsSt)) = some (b', s')) :
    b = b' ∧ s = s' := by
  injection h with h1
  injection h1 with hb hs
  exact ⟨hb, hs⟩

theorem dfsGo_visited_mono (g : DGraph) :
    ∀ (fuel : Nat) (task : DfsTask) (s : DfsSt) (b : Bool) (s' : DfsSt),
      dfsGo g fuel task s = some (b, s') → s.visited ⊆ s'.visited := by
  intro fuel
  induction fuel with
  | zero => intro task s b s' h; simp [dfsGo] at h
  | succ fuel ih =>
    intro task s b s' h
    cases task with
    | visit n =>
      simp only [dfsGo] at h
      cases hres : dfsGo g fuel (.expl (adj g n))
          ⟨n :: s.visited, n :: s.stack⟩ with
      | none => rw [hres] at h; exact Option.noConfusion h
      | some p =>
        obtain ⟨b2, s2⟩ := p
        have hgrow : s.visited ⊆ s2.visited := fun x hx =>
          ih _ _ _ _ hres (List.mem_cons_of_mem n hx)
        cases b2 with
        | true =>
          rw [hres] at h
          obtain ⟨hb, hs⟩ := some_pair_inj h
          subst hs
          exact hgrow
        | false =>
          rw [hres] at h
          obtain ⟨hb, hs⟩ := some_pair_inj h
          subst hs
          exact hgrow
    | expl l =>
      cases l with
      | nil =>
        simp only [dfsGo] at h
        obtain ⟨hb, hs⟩ := some_pair_inj h
        subst hs
        exact fun x hx => hx
      | cons m ms =>
        simp only [dfsGo] at h
        by_cases hv : m ∈ s.visited
        · rw [if_pos hv] at h
          by_cases hst : m ∈ s.stack
          · rw [if_pos hst] at h
            obtain ⟨hb, hs⟩ := some_pair_inj h
            subst hs
            exact fun x hx => hx
          · rw [if_neg hst] at h
            exact ih _ _ _ _ h
        · rw [if_neg hv] at h
          cases hres : dfsGo g fuel (.visit m) s with
          | none => rw [hres] at h; exact Option.noConfusion h
          | some p =>
            obtain ⟨b1, s1⟩ := p
            cases b1 with
            | true =>
              rw [hres] at h
              obtain ⟨hb, hs⟩ := some_pair_inj h
              subst hs
              exact ih _ _ _ _ hres
            | false =>
              rw [hres] at h
              exact fun x hx => ih _ _ _ _ h (ih _ _ _ _ hres hx)

theorem dfsGo_visit_mem (g : DGraph) (fuel : Nat) (n : List Char) (s : DfsSt)
    (b : Bool) (s' : DfsSt) (h : dfsGo g fuel (.visit n) s = some (b, s')) :
    n ∈ s'.visited := by
  cases fuel with
  | zero => simp [dfsGo] at h
  | succ fuel =>
    simp only [dfsGo] at h
    cases hres : dfsGo g fuel (.expl (adj g n))
        ⟨n :: s.visited, n :: s.stack⟩ with
    | none => rw [hres] at h; exact Option.noConfusion h
    | some p =>
      obtain ⟨b2, s2⟩ := p
      have hn2 : n ∈ s2.visited :=
        dfsGo_visited_mono g _ _ _ _ _ hres (List.mem_cons_self n s.visited)
      cases b2 with
      | true =>
        rw [hres] at h
        obtain ⟨hb, hs⟩ := some_pair_inj h
        subst hs
        exact hn2
      | false =>
        rw [hres] at h
        obtain ⟨hb, hs⟩ := some_pair_inj h
        subst hs
        exact hn2

theorem dfsGo_stack_false (g : DGraph) :
    ∀ (fuel : Nat) (task : DfsTask) (s s' : DfsSt),
      dfsGo g fuel task s = some (false, s') → s'.stack = s.stack := by
  intro fuel
  induction fuel with
  | zero => intro task s s' h; simp [dfsGo] at h
  | succ fuel ih =>
    intro task s s' h
    cases task with
    | visit n =>
      simp only [dfsGo] at h
      cases hres : dfsGo g fuel (.expl (adj g n))
          ⟨n :: s.visited, n :: s.stack⟩ with
      | none => rw [hres] at h; exact Option.noConfusion h
      | some p =>
        obtain ⟨b2, s2⟩ := p
        cases b2 with
        | true =>
          rw [hres] at h
          obtain ⟨hb, hs⟩ := some_pair_inj h
          exact absurd hb (by decide)
        | false =>
          rw [hres] at h
          obtain ⟨hb, hs⟩ := some_pair_inj h
          subst hs
          have h2 : s2.stack = n :: s.stack := ih _ _ _ hres
          show s2.stack.erase n = s.stack
          rw [h2, List.erase_cons_head]
    | expl l =>
      cases l with
      | nil =>
        simp only [dfsGo] at h
        obtain ⟨hb, hs⟩ := some_pair_inj h
        subst hs
        rfl
      | cons m ms =>
        simp only [dfsGo] at h
        by_cases hv : m ∈ s.visited
        · rw [if_pos hv] at h
          by_cases hst : m ∈ s.stack
          · rw [if_pos hst] at h
            obtain ⟨hb, hs⟩ := some_pair_inj h
            exact absurd hb (by decide)
          · rw [if_neg hst] at h
            exact ih _ _ _ h
        · rw [if_neg hv] at h
          cases hres : dfsGo g fuel (.visit m) s with
          | none => rw [hres] at h; exact Option.noConfusion h
          | some p =>
            obtain ⟨b1, s1⟩ := p
            cases b1 with
            | true =>
              rw [hres] at h
              obtain ⟨hb, hs⟩ := some_pair_inj h
              exact absurd hb (by decide)
            | false =>
              rw [hres] at h
              rw [ih _ _ _ h, ih _ _ _ hres]

theorem dfs_sound (g : DGraph) :
    ∀ (fuel : Nat) (task : DfsTask) (s : DfsSt) (res : DfsSt),
      dfsGo g fuel task s = some (true, res) →
      List.Chain' (fun a b => edgeRel g b a) s.stack →
      (match task with
       | .visit n => ∀ h ∈ s.stack.head?, edgeRel g h n
       | .expl l => ∃ cur rest, s.stack = cur :: rest ∧
           ∀ m ∈ l, edgeRel g cur m) →
      hasCycleSpec g := by
  intro fuel
  induction fuel with
  | zero => intro task s res h; simp [dfsGo] at h
  | succ fuel ih =>
    intro task s res h hch hpre
    cases task with
    | visit n =>
      simp only [dfsGo] at h
      cases hres : dfsGo g fuel (.expl (adj g n))
          ⟨n :: s.visited, n :: s.stack⟩ with
      | none => rw [hres] at h; exact Option.noConfusion h
      | some p =>
        obtain ⟨b2, s2⟩ := p
        cases b2 with
        | false =>
          rw [hres] at h
          obtain ⟨hb, _⟩ := some_pair_inj h
          exact absurd hb (by decide)
        | true =>
          refine ih _ _ _ hres ?_ ?_
          · show List.Chain' _ (n :: s.stack)
            rw [List.chain'_cons']
            exact ⟨fun y hy => hpre y hy, hch⟩
          · exact ⟨n, s.stack, rfl, fun m hm => hm⟩
    | expl l =>
      cases l with
      | nil =>
        simp only [dfsGo] at h
        obtain ⟨hb, _⟩ := some_pair_inj h
        exact absurd hb (by decide)
      | cons m ms =>
        obtain ⟨cur, rest, hstk, hadj⟩ := hpre
        simp only [dfsGo] at h
        by_cases hv : m ∈ s.visited
        · rw [if_pos hv] at h
          by_cases hst : m ∈ s.stack
          · exact ⟨m, @Relation.TransGen.tail' (List Char) (edgeRel g) m cur m
              (chainReach rest cur m (hstk ▸ hch) (hstk ▸ hst))
              (hadj m (List.mem_cons_self m ms))⟩
          · rw [if_neg hst] at h
            exact ih _ _ _ h hch
              ⟨cur, rest, hstk, fun x hx => hadj x (List.mem_cons_of_mem m hx)⟩
        · rw [if_neg hv] at h
          cases hres : dfsGo g fuel (.visit m) s with
          | none => rw [hres] at h; exact Option.noConfusion h
          | some p =>
            obtain ⟨b1, s1⟩ := p
            cases b1 with
            | true =>
              refine ih _ _ _ hres hch ?_
              intro hd hhd
              rw [hstk] at hhd
              injection hhd with hhd
              subst hhd
              exact hadj m (List.mem_cons_self m ms)
            | false =>
              rw [hres] at h
              have hs1 : s1.stack = s.stack := dfsGo_stack_false g _ _ _ _ hres
              refine ih _ _ _ h (hs1 ▸ hch) ?_
              exact ⟨cur, rest, hs1 ▸ hstk,
                fun x hx => hadj x (List.mem_cons_of_mem m hx)⟩

theorem dfs_false_post (g : DGraph) :
    ∀ (fuel : Nat) (task : DfsTask) (s res : DfsSt),
      dfsGo g fuel task s = some (false, res) →
      BlackInv g s → NoBlackCycle g s → StackSub s →
      (match task with
       | .visit n => n ∉ s.visited →
           BlackInv g res ∧ NoBlackCycle g res ∧ StackSub res ∧
             res.stack = s.stack ∧ s.visited ⊆ res.visited ∧ n ∈ res.visited
       | .expl l => ∀ cur rest, s.stack = cur :: rest →
           (∀ m, edgeRel g cur m → m ∈ l ∨ Black s m) →
           BlackInv g res ∧ NoBlackCycle g res ∧ StackSub res ∧
             res.stack = s.stack ∧ s.visited ⊆ res.visited ∧
             (∀ m, edgeRel g cur m → Black res m)) := by
  intro fuel
  induction fuel with
  | zero => intro task s res h; simp [dfsGo] at h
  | succ fuel ih =>
    intro task s res h hB hN hS
    cases task with
    | visit n =>
      intro hnv
      simp only [dfsGo] at h
      cases hres : dfsGo g fuel (.expl (adj g n))
          ⟨n :: s.visited, n :: s.stack⟩ with
      | none => rw [hres] at h; exact Option.noConfusion h
      | some p =>
        obtain ⟨b2, s2⟩ := p
        cases b2 with
        | true =>
          rw [hres] at h
          obtain ⟨hb, _⟩ := some_pair_inj h
          exact absurd hb (by decide)
        | false =>
          rw [hres] at h
          obtain ⟨_, hs⟩ := some_pair_inj h
          subst hs
          have hB1 : BlackInv g ⟨n :: s.visited, n :: s.stack⟩ := by
            intro x hx m hm
            exact (black_push hnv m).2 (hB x ((black_push hnv x).1 hx) m hm)
          have hN1 : NoBlackCycle g ⟨n :: s.visited, n :: s.stack⟩ := by
            intro x hx
            exact hN x ((black_push hnv x).1 hx)
          have hS1 : StackSub ⟨n :: s.visited, n :: s.stack⟩ := by
            intro x hx
            rcases List.mem_cons.1 hx with rfl | hx
            · exact List.mem_cons_self x s.visited
            · exact List.mem_cons_of_mem n (hS x hx)
          have hpost := ih _ _ _ hres hB1 hN1 hS1 n s.stack rfl
            (fun m hm => Or.inl hm)
          obtain ⟨hB2, hN2, hS2, hstk2, hv2, hnb2⟩ := hpost
          have hstk2' : s2.stack = n :: s.stack := hstk2
          have hres_stack :
              (⟨s2.visited, s2.stack.erase n⟩ : DfsSt).stack = s.stack := by
            show s2.stack.erase n = s.stack
            rw [hstk2', List.erase_cons_head]
          have hvsub : s.visited ⊆ s2.visited :=
            fun x hx => hv2 (List.mem_cons_of_mem n hx)
          have hb2r : ∀ x, Black s2 x →
              Black ⟨s2.visited, s2.stack.erase n⟩ x := by
            rintro x ⟨hxv, hxs⟩
            refine ⟨hxv, ?_⟩
            rw [show (⟨s2.visited, s2.stack.erase n⟩ : DfsSt).stack
              = s.stack from hres_stack]
            intro hc
            exact hxs (hstk2' ▸ List.mem_cons_of_mem n hc)
          have hcases : ∀ x, Black ⟨s2.visited, s2.stack.erase n⟩ x →
              Black s2 x ∨ x = n := by
            rintro x ⟨hxv, hxs⟩
            by_cases hxn : x = n
            · exact Or.inr hxn
            · refine Or.inl ⟨hxv, ?_⟩
              rw [hstk2']
              rw [show (⟨s2.visited, s2.stack.erase n⟩ : DfsSt).stack
                = s.stack from hres_stack] at hxs
              intro hc
              rcases List.mem_cons.1 hc with rfl | hc
              · exact hxn rfl
              · exact hxs hc
          refine ⟨?_, ?_, ?_, hres_stack, hvsub, hv2 (List.mem_cons_self _ _)⟩
          · intro x hx m hm
            rcases hcases x hx with hx2 | rfl
            · exact hb2r m (hB2 x hx2 m hm)
            · exact hb2r m (hnb2 m hm)
          · intro x hx hcyc
            rcases hcases x hx with hx2 | rfl
            · exact hN2 x hx2 hcyc
            · obtain ⟨mk, hedge, hrt⟩ := Relation.TransGen.head'_iff.1 hcyc
              have hbm : Black s2 mk := hnb2 mk hedge
              have hbn : Black s2 x := blackReach hB2 hbm hrt
              exact hbn.2 (hstk2' ▸ List.mem_cons_self x s.stack)
          · intro x hx
            rw [show (⟨s2.visited, s2.stack.erase n⟩ : DfsSt).stack
              = s.stack from hres_stack] at hx
            exact hvsub (hS x hx)
    | expl l =>
      intro cur rest hstk hnbr
      cases l with
      | nil =>
        simp only [dfsGo] at h
        obtain ⟨_, hs⟩ := some_pair_inj h
        subst hs
        refine ⟨hB, hN, hS, rfl, fun x hx => hx, fun m hm => ?_⟩
        rcases hnbr m hm with hc | hc
        · cases hc
        · exact hc
      | cons m ms =>
        simp only [dfsGo] at h
        by_cases hv : m ∈ s.visited
        · rw [if_pos hv] at h
          by_cases hst : m ∈ s.stack
          · rw [if_pos hst] at h
            obtain ⟨hb, _⟩ := some_pair_inj h
            exact absurd hb (by decide)
          · rw [if_neg hst] at h
            refine ih _ _ _ h hB hN hS cur rest hstk ?_
            intro x hx
            rcases hnbr x hx with hc | hc
            · rcases List.mem_cons.1 hc with rfl | hc
              · exact Or.inr ⟨hv, hst⟩
              · exact Or.inl hc
            · exact Or.inr hc
        · rw [if_neg hv] at h
          have hmns : m ∉ s.stack := fun hc => hv (hS m hc)
          cases hres : dfsGo g fuel (.visit m) s with
          | none => rw [hres] at h; exact Option.noConfusion h
          | some p =>
            obtain ⟨b1, s1⟩ := p
            cases b1 with
            | true =>
              rw [hres] at h
              obtain ⟨hb, _⟩ := some_pair_inj h
              exact absurd hb (by decide)
            | false =>
              rw [hres] at h
              obtain ⟨hB1, hN1, hS1, hstk1, hv1, hm1⟩ :=
                ih _ _ _ hres hB hN hS hv
              have hpre2 : ∀ x, edgeRel g cur x → x ∈ ms ∨ Black s1 x := by
                intro x hx
                rcases hnbr x hx with hc | hc
                · rcases List.mem_cons.1 hc with rfl | hc
                  · exact Or.inr ⟨hm1, hstk1 ▸ hmns⟩
                  · exact Or.inl hc
                · exact Or.inr (black_persist hstk1 hv1 hc)
              obtain ⟨hBr, hNr, hSr, hstkr, hvr, hnbrr⟩ :=
                ih _ _ _ h hB1 hN1 hS1 cur rest (hstk1.trans hstk) hpre2
              exact ⟨hBr, hNr, hSr, hstkr.trans hstk1,
                fun x hx => hvr (hv1 hx), hnbrr⟩

theorem uCount_pos {g : DGraph} {s : DfsSt} {n : List Char}
    (hm : n ∈ mentioned g) (hn : n ∉ s.visited) : 1 ≤ uCount g s := by
  have : n ∈ (mentioned g).dedup.filter (fun x => x ∉ s.visited) := by
    rw [List.mem_filter]
    exact ⟨List.mem_dedup.2 hm, by simpa using hn⟩
  exact List.length_pos.2 (List.ne_nil_of_mem this)

theorem dfs_adequate (g : DGraph) :
    ∀ (fuel : Nat) (task : DfsTask) (s : DfsSt),
      (match task with
       | .visit n => n ∉ s.visited ∧ n ∈ mentioned g ∧
           (maxAdj g + 2) * uCount g s ≤ fuel
       | .expl l => (∀ m ∈ l, m ∈ mentioned g) ∧
           l.length + 1 + (maxAdj g + 2) * uCount g s ≤ fuel) →
      (dfsGo g fuel task s).isSome := by
  intro fuel
  induction fuel with
  | zero =>
    intro task s hpre
    cases task with
    | visit n =>
      obtain ⟨hnv, hnm, hfuel⟩ := hpre
      have h1 := uCount_pos hnm hnv
      have h2 : 1 * 1 ≤ (maxAdj g + 2) * uCount g s :=
        Nat.mul_le_mul (by omega) h1
      omega
    | expl l =>
      obtain ⟨_, hfuel⟩ := hpre
      omega
  | succ fuel ih =>
    intro task s hpre
    cases task with
    | visit n =>
      obtain ⟨hnv, hnm, hfuel⟩ := hpre
      have hu1 : uCount g ⟨n :: s.visited, n :: s.stack⟩ + 1 ≤ uCount g s :=
        uCount_visit hnv hnm _
      have hmul : (maxAdj g + 2) * (uCount g ⟨n :: s.visited, n :: s.stack⟩ + 1)
          ≤ (maxAdj g + 2) * uCount g s := Nat.mul_le_mul_left _ hu1
      rw [Nat.mul_succ] at hmul
      have hlen := adj_length_le_maxAdj g n
      have hin := ih (.expl (adj g n)) ⟨n :: s.visited, n :: s.stack⟩
        ⟨fun m hm => adj_mem_mentioned g n m hm, by omega⟩
      simp only [dfsGo]
      obtain ⟨p, hp⟩ := Option.isSome_iff_exists.1 hin
      obtain ⟨b2, s2⟩ := p
      rw [hp]
      cases b2 <;> simp
    | expl l =>
      cases l with
      | nil => simp [dfsGo]
      | cons m ms =>
        obtain ⟨hmem, hfuel⟩ := hpre
        rw [List.length_cons] at hfuel
        simp only [dfsGo]
        by_cases hv : m ∈ s.visited
        · rw [if_pos hv]
          by_cases hst : m ∈ s.stack
          · rw [if_pos hst]
            simp
          · rw [if_neg hst]
            exact ih (.expl ms) s
              ⟨fun x hx => hmem x (List.mem_cons_of_mem m hx), by omega⟩
        · rw [if_neg hv]
          have hvm := ih (.visit m) s
            ⟨hv, hmem m (List.mem_cons_self m ms), by omega⟩
          obtain ⟨p, hp⟩ := Option.isSome_iff_exists.1 hvm
          obtain ⟨b1, s1⟩ := p
          rw [hp]
          cases b1 with
          | true => simp
          | false =>
            have hm1 : m ∈ s1.visited := dfsGo_visit_mem g _ _ _ _ _ hp
            have hmono : s.visited ⊆ s1.visited := dfsGo_visited_mono g _ _ _ _ _ hp
            have hsub : (⟨m :: s.visited, s.stack⟩ : DfsSt).visited ⊆ s1.visited := by
              intro x hx
              rcases List.mem_cons.1 hx with rfl | hx
              · exact hm1
              · exact hmono hx
            have hle : uCount g s1 ≤ uCount g ⟨m :: s.visited, s.stack⟩ :=
              uCount_mono hsub
            have hlt : uCount g ⟨m :: s.visited, s.stack⟩ < uCount g s :=
              uCount_visit hv (hmem m (List.mem_cons_self m ms)) _
            have hmul : (maxAdj g + 2) * (uCount g s1 + 1)
                ≤ (maxAdj g + 2) * uCount g s :=
              Nat.mul_le_mul_left _ (by omega)
            rw [Nat.mul_succ] at hmul
            exact ih (.expl ms) s1
              ⟨fun x hx => hmem x (List.mem_cons_of_mem m hx), by omega⟩

theorem hasCycleGo_adequate (g : DGraph) :
    ∀ (ks : List (List Char)) (s : DfsSt),
      (∀ k ∈ ks, k ∈ mentioned g) →
      (hasCycleGo g (fuelBound g) ks s).isSome := by
  intro ks
  induction ks with
  | nil => intro s _; simp [hasCycleGo]
  | cons n ns ih =>
    intro s hks
    simp only [hasCycleGo]
    by_cases hv : n ∈ s.visited
    · rw [if_pos hv]
      exact ih s fun k hk => hks k (List.mem_cons_of_mem n hk)
    · rw [if_neg hv]
      have hmul : (maxAdj g + 2) * uCount g s
          ≤ (maxAdj g + 2) * (mentioned g).length :=
        Nat.mul_le_mul_left _ (uCount_le_mentioned g s)
      have hvm := dfs_adequate g (fuelBound g) (.visit n) s
        ⟨hv, hks n (List.mem_cons_self n ns), by rw [fuelBound]; omega⟩
      obtain ⟨p, hp⟩ := Option.isSome_iff_exists.1 hvm
      obtain ⟨b1, s1⟩ := p
      rw [hp]
      cases b1 with
      | true => simp
      | false => exact ih s1 fun k hk => hks k (List.mem_cons_of_mem n hk)

theorem hasCycleGo_sound (g : DGraph) (fuel : Nat) :
    ∀ (ks : List (List Char)) (s : DfsSt), s.stack = [] →
      hasCycleGo g fuel ks s = some true → hasCycleSpec g := by
  intro ks
  induction ks with
  | nil =>
    intro s _ h
    simp [hasCycleGo] at h
  | cons n ns ih =>
    intro s hstk h
    simp only [hasCycleGo] at h
    by_cases hv : n ∈ s.visited
    · rw [if_pos hv] at h
      exact ih s hstk h
    · rw [if_neg hv] at h
      cases hres : dfsGo g fuel (.visit n) s with
      | none => rw [hres] at h; exact Option.noConfusion h
      | some p =>
        obtain ⟨b1, s1⟩ := p
        cases b1 with
        | true =>
          refine dfs_sound g fuel (.visit n) s s1 hres ?_ ?_
          · rw [hstk]
            simp
          · intro hd hhd
            rw [hstk] at hhd
            cases hhd
        | false =>
          rw [hres] at h
          exact ih s1 ((dfsGo_stack_false g _ _ _ _ hres).trans hstk) h

theorem hasCycleGo_false_post (g : DGraph) (fuel : Nat) :
    ∀ (ks : List (List Char)) (s : DfsSt),
      BlackInv g s → NoBlackCycle g s → StackSub s → s.stack = [] →
      hasCycleGo g fuel ks s = some false →
      ∃ se : DfsSt, NoBlackCycle g se ∧ se.stack = [] ∧
        s.visited ⊆ se.visited ∧ (∀ k ∈ ks, k ∈ se.visited) := by
  intro ks
  induction ks with
  | nil =>
    intro s _ hN _ hstk _
    exact ⟨s, hN, hstk, fun x hx => hx, fun k hk => absurd hk (List.not_mem_nil k)⟩
  | cons n ns ih =>
    intro s hB hN hS hstk h
    simp only [hasCycleGo] at h
    by_cases hv : n ∈ s.visited
    · rw [if_pos hv] at h
      obtain ⟨se, hNse, hstkse, hsub, hall⟩ := ih s hB hN hS hstk h
      refine ⟨se, hNse, hstkse, hsub, fun k hk => ?_⟩
      rcases List.mem_cons.1 hk with rfl | hk
      · exact hsub hv
      · exact hall k hk
    · rw [if_neg hv] at h
      cases hres : dfsGo g fuel (.visit n) s with
      | none => rw [hres] at h; exact Option.noConfusion h
      | some p =>
        obtain ⟨b1, s1⟩ := p
        cases b1 with
        | true =>
          rw [hres] at h
          injection h with h1
          exact absurd h1 (by decide)
        | false =>
          rw [hres] at h
          obtain ⟨hB1, hN1, hS1, hstk1, hv1, hn1⟩ :=
            dfs_false_post g fuel (.visit n) s s1 hres hB hN hS hv
          obtain ⟨se, hNse, hstkse, hsub, hall⟩ :=
            ih s1 hB1 hN1 hS1 (hstk1.trans hstk) h
          refine ⟨se, hNse, hstkse, fun x hx => hsub (hv1 hx), fun k hk => ?_⟩
          rcases List.mem_cons.1 hk with rfl | hk
          · exact hsub hn1
          · exact hall k hk

/-- **C6**.  `has_cycle` is correct: it returns `true` exactly when the
graph has a directed cycle (some node reaches itself through one or more
edges — a self-loop being the one-edge case), and therefore returns `false`
for every acyclic graph, the empty graph included.  The proof follows the
source's DFS: a hit on the recursion stack exhibits a cycle from the stack
chain (soundness), and a false-returning run leaves every key finished with
no finished node on any cycle (completeness), the fuel bound never being
exhausted. -/
theorem has_cycle_correct (g : DGraph) :
    has_cycle g = true ↔ hasCycleSpec g := by
  have had := hasCycleGo_adequate g (gkeys g) ⟨[], []⟩
    (fun k hk => gkeys_mem_mentioned g k hk)
  obtain ⟨b, hb⟩ := Option.isSome_iff_exists.1 had
  constructor
  · intro h
    rw [has_cycle, hb] at h
    simp only [Option.getD_some] at h
    subst h
    exact hasCycleGo_sound g (fuelBound g) (gkeys g) ⟨[], []⟩ rfl hb
  · intro hspec
    rw [has_cycle, hb]
    cases b with
    | true => rfl
    | false =>
      exfalso
      obtain ⟨se, hNse, hstkse, _, hall⟩ :=
        hasCycleGo_false_post g (fuelBound g) (gkeys g) ⟨[], []⟩
          (by rintro x ⟨hx, _⟩; cases hx) (by rintro x ⟨hx, _⟩; cases hx)
          (by rintro x hx; cases hx) rfl hb
      obtain ⟨a, ha⟩ := hspec
      obtain ⟨b2, hedge, _⟩ := Relation.TransGen.head'_iff.1 ha
      have hak : a ∈ gkeys g := edge_mem_gkeys g a b2 hedge
      exact hNse a ⟨hall a hak, by rw [hstkse]; exact List.not_mem_nil a⟩ ha

theorem has_cycle_correct_witness :
    has_cycle [(cs "a", [cs "a"])] = true :=
  (has_cycle_correct [(cs "a", [cs "a"])]).2
    ⟨cs "a", Relation.TransGen.single
      (show cs "a" ∈ adj [(cs "a", [cs "a"])] (cs "a") by decide)⟩
